import Mathlib

/-!
Tenebra: a verification development.

A shallow embedding of the `tenebra` pipeline (packages `download`,
`timemachine`, `postprocess`, `process`, `api`) together with the properties
established about it.

Conventions of the embedding.

* A Go `string` is modelled as a `List Char`.  Every byte the code inspects
  (`/`, `.`, `*`, `\n`, `\r`) is ASCII, so splitting and prefix tests behave the
  same on characters as on the UTF-8 bytes.
* The functions of the Go standard library that the code calls
  (`filepath.Clean`, `filepath.Join`, `strings.HasPrefix`, `strings.Split`,
  `strings.Contains`, `bufio.ScanLines`, …) are modelled after their documented
  behaviour on a Unix system (separator `/`, no volume names).
* Goroutines that append to a shared slice under a mutex are modelled by an
  explicit schedule: the order in which the goroutines take the mutex.
-/

set_option autoImplicit false

namespace Tenebra

/-! ## Strings and paths (Go standard library, Unix) -/

/-- The path separator `os.PathSeparator` on Unix. -/
def Separator : Char := '/'

/-- `strings.HasPrefix(s, prefix)`. -/
def HasPrefix : List Char → List Char → Bool
  | _, [] => true
  | [], _ :: _ => false
  | c :: s, p :: ps => if c = p then HasPrefix s ps else false

/-- `strings.Split(s, sep)` for a one-byte separator: the pieces of `s` between
occurrences of `sep`; always at least one piece. -/
def Split (sep : Char) : List Char → List (List Char)
  | [] => [[]]
  | c :: s =>
    if c = sep then [] :: Split sep s
    else
      match Split sep s with
      | [] => [[c]]
      | p :: ps => (c :: p) :: ps

/-- `strings.Join(elems, sep)` for a one-byte separator. -/
def JoinStrings (sep : Char) : List (List Char) → List Char
  | [] => []
  | [p] => p
  | p :: q :: ps => p ++ sep :: JoinStrings sep (q :: ps)

/-- One step of `filepath.Clean` on the stack of components kept so far (top
first).  Empty and `.` components are dropped; `..` removes the previous
component when there is one that is not itself `..`, is dropped at the root of
a rooted path, and is kept otherwise. -/
def cleanStep (rooted : Bool) (stack : List (List Char)) (c : List Char) :
    List (List Char) :=
  if c = [] ∨ c = ['.'] then stack
  else if c = ['.', '.'] then
    match stack with
    | [] => if rooted then [] else [c]
    | top :: rest => if top = ['.', '.'] then c :: stack else rest
  else c :: stack

/-- The components that `filepath.Clean` keeps, in path order. -/
def cleanComponents (rooted : Bool) (comps : List (List Char)) : List (List Char) :=
  (comps.foldl (cleanStep rooted) []).reverse

/-- Whether a path starts with the separator. -/
def isRooted : List Char → Bool
  | c :: _ => c = Separator
  | [] => false

/-- `filepath.Clean(path)`: the shortest path name equivalent to `path` by
purely lexical processing.  The empty result is `.`. -/
def Clean (path : List Char) : List Char :=
  let rooted := isRooted path
  let body := JoinStrings Separator (cleanComponents rooted (Split Separator path))
  if rooted then Separator :: body
  else if body = [] then ['.'] else body

/-- `filepath.Join(a, b)`: empty elements are ignored, the rest are joined with
the separator and the result is cleaned; all elements empty gives the empty
string. -/
def Join (a b : List Char) : List Char :=
  if a ≠ [] then Clean (a ++ Separator :: b)
  else if b ≠ [] then Clean b
  else []

/-- `filepath.Dir(path)`: everything up to and including the last separator,
cleaned. -/
def Dir (path : List Char) : List Char :=
  Clean ((path.reverse.dropWhile (fun c => c ≠ Separator)).reverse)

/-- The last element of `strings.Split(url, "/")`, the file name
`DownloadAndUnzip` derives from a URL. -/
def lastToken (url : List Char) : List Char :=
  (Split Separator url).getLastD []

/-- A path element that `filepath.Clean` keeps as it is: not empty, not `.`,
not `..`, and free of separators. -/
def IsPlainName (f : List Char) : Prop :=
  f ≠ [] ∧ f ≠ ['.'] ∧ f ≠ ['.', '.'] ∧ Separator ∉ f

instance (f : List Char) : Decidable (IsPlainName f) := by
  unfold IsPlainName; infer_instance

/-- The part of `Join a f` that comes before a plain last element `f`. -/
def joinStem (a : List Char) : List Char :=
  if a = [] then []
  else
    let l := cleanComponents (isRooted a) (Split Separator a)
    (if isRooted a then [Separator] else []) ++
      (if l = [] then [] else JoinStrings Separator l ++ [Separator])

/-! ## A lexical model of path resolution

`resolve cwd p` is the absolute location, as a list of components below the
root, that the operating system reaches from the working directory `cwd` when
it walks the path `p` (symbolic links aside). -/

/-- One step of the walk: stay, go up, or descend. -/
def walkStep (stack : List (List Char)) (c : List Char) : List (List Char) :=
  if c = [] ∨ c = ['.'] then stack
  else if c = ['.', '.'] then stack.tail
  else c :: stack

/-- The absolute location of `p` seen from the working directory `cwd`. -/
def resolve (cwd : List (List Char)) (p : List Char) : List (List Char) :=
  ((Split Separator p).foldl walkStep (if isRooted p then [] else cwd.reverse)).reverse

/-- Whether `p` lies in the directory tree rooted at `dest` (`dest` itself
included), seen from `cwd`. -/
def within (cwd : List (List Char)) (dest p : List Char) : Bool :=
  decide (resolve cwd dest <+: resolve cwd p)

/-- Whether `p` lies strictly below `dest`, seen from `cwd`. -/
def strictlyWithin (cwd : List (List Char)) (dest p : List Char) : Bool :=
  within cwd dest p && decide (resolve cwd dest ≠ resolve cwd p)

/-- The stack `filepath.Clean` ends with on `path`: the kept components, last
one first. -/
def cleanStack (path : List Char) : List (List Char) :=
  (Split Separator path).foldl (cleanStep (isRooted path)) []

/-- The invariant of the stack of `filepath.Clean`: no component is empty or
`.`, none holds a separator, and a `..` has only `..` below it. -/
def StackOK (stack : List (List Char)) : Prop :=
  (∀ x ∈ stack, x ≠ [] ∧ x ≠ ['.'] ∧ Separator ∉ x) ∧
    stack.Chain' (fun a b => a = ['.', '.'] → b = ['.', '.'])

/-- Whether the cleaned form of `dest` ends in a proper name: `dest` is not
empty, does not clean to `.` or `/`, and does not clean to a chain of `..`. -/
def Anchored (dest : List Char) : Bool :=
  match cleanStack dest with
  | [] => false
  | top :: _ => decide (top ≠ ['.', '.'])

/-! ## Package `download`: archives -/

/-- The file-system operations the extraction performs, in the order it
performs them. -/
inductive FsOp where
  | mkdirAll (path : List Char)
  | create (path : List Char)
  | write (path : List Char) (data : List Char)
  deriving DecidableEq

/-- The path an operation acts on. -/
def FsOp.path : FsOp → List Char
  | .mkdirAll p => p
  | .create p => p
  | .write p _ => p

/-- The errors the `download` functions return. -/
inductive DownloadError where
  | http
  | status (code : Nat)
  | zipOpen
  | illegalFilePath (fpath : List Char)
  | os (op : FsOp)
  | entryOpen (name : List Char)
  deriving DecidableEq

/-- The outcome of a run: the error returned (`none` for `nil`) and the
file-system operations that were carried out. -/
structure Outcome where
  err : Option DownloadError
  trace : List FsOp
  deriving DecidableEq

/-- An entry of a zip archive (`zip.File`): its stored name, whether its header
marks a directory, and its bytes (`none` when `file.Open()` fails). -/
structure ZipFile where
  Name : List Char
  dirMode : Bool
  data : Option (List Char)
  deriving DecidableEq

/-- `file.FileInfo().IsDir()`: the header marks a directory, or the stored name
ends in a slash. -/
def ZipFile.IsDir (f : ZipFile) : Bool :=
  f.dirMode || f.Name.getLast? == some '/'

/-- The traversal test of `unzip`: the entry is rejected when this is `false`. -/
def zipSlipCheck (dest name : List Char) : Bool :=
  HasPrefix (Join dest name) (Clean dest ++ [Separator])

/-- The loop of `unzip` over the entries of the archive.  `ok op` tells whether
the operating system carries out `op` without error. -/
def unzipFiles (ok : FsOp → Bool) (dest : List Char) : List ZipFile → Outcome
  | [] => ⟨none, []⟩
  | file :: rest =>
    let fpath := Join dest file.Name
    if !HasPrefix fpath (Clean dest ++ [Separator]) then
      ⟨some (.illegalFilePath fpath), []⟩
    else if file.IsDir then
      let r := unzipFiles ok dest rest
      ⟨r.err, (if ok (.mkdirAll fpath) then [FsOp.mkdirAll fpath] else []) ++ r.trace⟩
    else if !ok (.mkdirAll (Dir fpath)) then
      ⟨some (.os (.mkdirAll (Dir fpath))), []⟩
    else if !ok (.create fpath) then
      ⟨some (.os (.create fpath)), [.mkdirAll (Dir fpath)]⟩
    else
      match file.data with
      | none => ⟨some (.entryOpen file.Name), [.mkdirAll (Dir fpath), .create fpath]⟩
      | some bytes =>
        if !ok (.write fpath bytes) then
          ⟨some (.os (.write fpath bytes)), [.mkdirAll (Dir fpath), .create fpath]⟩
        else
          let r := unzipFiles ok dest rest
          ⟨r.err, .mkdirAll (Dir fpath) :: .create fpath :: .write fpath bytes :: r.trace⟩

/-- `unzip(src, dest)`: `archive` is what `zip.OpenReader(src)` yields (`none`
when it fails). -/
def unzip (ok : FsOp → Bool) (archive : Option (List ZipFile)) (dest : List Char) :
    Outcome :=
  match archive with
  | none => ⟨some .zipOpen, []⟩
  | some files => unzipFiles ok dest files

/-- An HTTP response: `http.Get` either fails or returns a status and a body. -/
structure Response where
  StatusCode : Nat
  Body : List Char

/-- The path of the archive file that `DownloadAndUnzip` creates for `url`. -/
def archivePath (url outputDir : List Char) : List Char :=
  Join outputDir (lastToken url)

/-- `DownloadAndUnzip(url, outputDir)`.  `get` stands for `http.Get` and
`openZip` for the zip reader applied to the bytes saved on disk. -/
def DownloadAndUnzip (get : List Char → Option Response)
    (openZip : List Char → Option (List ZipFile)) (ok : FsOp → Bool)
    (url outputDir : List Char) : Outcome :=
  match get url with
  | none => ⟨some .http, []⟩
  | some resp =>
    if resp.StatusCode ≠ 200 then ⟨some (.status resp.StatusCode), []⟩
    else
      let filename := lastToken url
      let filePath := Join outputDir filename
      if !ok (.create filePath) then ⟨some (.os (.create filePath)), []⟩
      else if !ok (.write filePath resp.Body) then
        ⟨some (.os (.write filePath resp.Body)), [.create filePath]⟩
      else
        let r := unzip ok (openZip resp.Body) outputDir
        ⟨r.err, .create filePath :: .write filePath resp.Body :: r.trace⟩

/-- The paths a run writes. -/
def Outcome.paths (r : Outcome) : List (List Char) :=
  r.trace.map FsOp.path

/-! ## Go slices -/

/-- A Go slice value: either `nil` (`none`) or a possibly empty sequence of
elements.  `encoding/json` renders the two differently. -/
abbrev Slice (α : Type) := Option (List α)

/-- The elements of a slice; `nil` has none. -/
def Slice.elems {α : Type} (s : Slice α) : List α := s.getD []

/-- `append(s, x)`: appending to `nil` gives a non-nil slice. -/
def Slice.push {α : Type} (s : Slice α) (x : α) : Slice α := some (s.elems ++ [x])

/-! ## Package `types` -/

/-- `types.Item`: one record of the remote index.  The time stamp is kept as the
text it was decoded from. -/
structure Item where
  Name : List Char
  ProgramURL : List Char
  URL : List Char
  Count : Int
  Change : Int
  IsNew : Bool
  Platform : List Char
  Bounty : Bool
  LastUpdated : List Char
  deriving DecidableEq

/-! ## Package `process` -/

/-- `process.DownloadAndProcessItem(item, outputDir)`: the error of the download
is only logged. -/
def DownloadAndProcessItem (get : List Char → Option Response)
    (openZip : List Char → Option (List ZipFile)) (ok : FsOp → Bool)
    (item : Item) (outputDir : List Char) : Outcome :=
  DownloadAndUnzip get openZip ok item.URL outputDir

/-- `process.ProcessItems(items, outputDir)`: one task per item; the result lists
what each task did, in the order of the items. -/
def ProcessItems (get : List Char → Option Response)
    (openZip : List Char → Option (List ZipFile)) (ok : FsOp → Bool)
    (items : List Item) (outputDir : List Char) : List Outcome :=
  items.map (fun item => DownloadAndProcessItem get openZip ok item outputDir)

/-! ## Package `timemachine` -/

/-- The files of the working directory: the content of each path that holds a
file, and the paths the process may not write or remove. -/
structure Disk where
  file : List Char → Option (List Char)
  readOnly : List Char → Bool

/-- `os.WriteFile(path, data, 0644)`: creates or overwrites; `none` on error. -/
def Disk.WriteFile (d : Disk) (path data : List Char) : Option Disk :=
  if d.readOnly path then none
  else some { d with file := fun q => if q = path then some data else d.file q }

/-- `os.Remove(path)`: `none` on error. -/
def Disk.Remove (d : Disk) (path : List Char) : Option Disk :=
  if d.readOnly path then none
  else
    match d.file path with
    | none => none
    | some _ => some { d with file := fun q => if q = path then none else d.file q }

/-- What lies outside the process: the working directory reported by
`os.Getwd`, the HTTP server, the JSON decoder and encoder for `[]types.Item`,
and the SHA-256 digest in hexadecimal. -/
structure Env where
  getwd : Option (List Char)
  get : List Char → Option Response
  decode : List Char → Option (Slice Item)
  marshal : Slice Item → Option (List Char)
  sha256hex : List Char → List Char

/-- The constant `jsonURL`. -/
def jsonURL : List Char := "https://chaos-data.projectdiscovery.io/index.json".toList

/-- The constant `inputJSONFileName`. -/
def inputJSONFileName : List Char := "input.json".toList

/-- The name of the side file. -/
def newJSONFileName : List Char := "new.json".toList

/-- `download.FetchAndParseJSON(url, filePath)`: the decoded items, or `none`
for an error; the disk afterwards. -/
def FetchAndParseJSON (env : Env) (d : Disk) (url filePath : List Char) :
    Option (Slice Item) × Disk :=
  match env.get url with
  | none => (none, d)
  | some resp =>
    if resp.StatusCode ≠ 200 then (none, d)
    else
      match env.decode resp.Body with
      | none => (none, d)
      | some items =>
        match env.marshal items with
        | none => (none, d)
        | some jsonContent =>
          match d.WriteFile filePath jsonContent with
          | none => (none, d)
          | some d1 => (some items, d1)

/-- `calculateFileHash(content)`: the SHA-256 digest as a hexadecimal string. -/
def calculateFileHash (env : Env) (content : List Char) : List Char :=
  env.sha256hex content

/-- `compareFileHashes(file1, file2)`: whether the two digests are equal. -/
def compareFileHashes (env : Env) (file1 file2 : List Char) : Bool :=
  decide (calculateFileHash env file1 = calculateFileHash env file2)

/-- How a run of `FetchJSON` ends: it returns an error, the process exits in
`logrus.Fatal`, or it returns the items and the change flag. -/
inductive Sync where
  | error (d : Disk)
  | fatal (d : Disk)
  | done (items : Slice Item) (changed : Bool) (d : Disk)

/-- `timemachine.FetchJSON()`. -/
def FetchJSON (env : Env) (d : Disk) : Sync :=
  match env.getwd with
  | none => .error d
  | some currentDir =>
    let inputJSONPath := Join currentDir inputJSONFileName
    let newJSONPath := Join currentDir newJSONFileName
    match d.file inputJSONPath with
    | none =>
      match FetchAndParseJSON env d jsonURL inputJSONPath with
      | (none, d1) => .fatal d1
      | (some items, d1) => .done items true d1
    | some _ =>
      match FetchAndParseJSON env d jsonURL newJSONPath with
      | (none, d1) => .fatal d1
      | (some newItems, d1) =>
        match d1.file inputJSONPath with
        | none => .fatal d1
        | some inputJSONContent =>
          match env.marshal newItems with
          | none => .fatal d1
          | some newJSONContent =>
            let updated := compareFileHashes env inputJSONContent newJSONContent
            if !updated then
              match d1.file newJSONPath with
              | none => .fatal d1
              | some inputContent =>
                match d1.WriteFile inputJSONPath inputContent with
                | none => .fatal d1
                | some d2 =>
                  match d2.Remove newJSONPath with
                  | none => .fatal d2
                  | some d3 => .done newItems true d3
            else .done newItems false d1

/-- The disk a run leaves behind. -/
def Sync.disk : Sync → Disk
  | .error d => d
  | .fatal d => d
  | .done _ _ d => d

/-- The change flag a run returns, when it returns without error. -/
def Sync.changed? : Sync → Option Bool
  | .done _ c _ => some c
  | _ => none

/-- The items a run returns, when it returns without error. -/
def Sync.items? : Sync → Option (Slice Item)
  | .done i _ _ => some i
  | _ => none

/-! ## Lines of a file (`bufio.Scanner` with `bufio.ScanLines`) -/

/-- The constant `bufio.MaxScanTokenSize`. -/
def MaxScanTokenSize : Nat := 64 * 1024

/-- The number of bytes of a string in UTF-8. -/
def byteLen (s : List Char) : Nat := (s.map Char.utf8Size).sum

/-- The newline-terminated lines of a file; a final piece without a newline is a
line when it is not empty. -/
def fileLines (data : List Char) : List (List Char) :=
  let pieces := Split '\n' data
  if pieces.getLastD [] = [] then pieces.dropLast else pieces

/-- The helper `dropCR` of `bufio`: one trailing carriage return is dropped. -/
def dropCR (line : List Char) : List Char :=
  if line.getLast? = some '\r' then line.dropLast else line

/-- All tokens a `bufio.Scanner` with the default buffer yields on `data`, or
`none` when `scanner.Err()` reports a line that does not fit the buffer. -/
def scanLines (data : List Char) : Option (List (List Char)) :=
  let lines := fileLines data
  if lines.all (fun l => decide (byteLen l < MaxScanTokenSize)) then some (lines.map dropCR)
  else none

/-- `fmt.Fprintln(file, url)` for every `url`: the bytes `writeMergedURLs` writes. -/
def printLines : List (List Char) → List Char
  | [] => []
  | url :: urls => url ++ '\n' :: printLines urls

/-- `filepath.Ext(path)`: the suffix beginning at the final dot of the final
element of `path`; empty if there is no dot. -/
def Ext (path : List Char) : List Char :=
  go path.reverse []
where
  /-- Scans backwards from the end of the path, collecting the suffix. -/
  go : List Char → List Char → List Char
    | [], _ => []
    | c :: rest, acc =>
      if c = Separator then []
      else if c = '.' then c :: acc
      else go rest (c :: acc)

/-! ## Package `download`: post-processing -/

/-- A top-level entry of the output directory (`fs.DirEntry` together with the
state of the file behind it): `content` is `none` when the file cannot be
opened, `locked` tells that `os.Remove` fails on it. -/
structure DirEntry where
  Name : List Char
  IsDir : Bool
  content : Option (List Char)
  locked : Bool
  deriving DecidableEq

/-- Where `outputFile` points: at a top-level entry of the output directory, or
at a file elsewhere. -/
inductive Target where
  | entry (name : List Char)
  | elsewhere
  deriving DecidableEq

/-- The part of the file system post-processing touches: the listing of the
output directory as `os.ReadDir` returns it (`none` when it fails), the file
`outputFile` names when it lies elsewhere, and whether `os.Create` fails
there. -/
structure World where
  dir : Option (List DirEntry)
  outside : Option (List Char)
  createFails : Bool
  deriving DecidableEq

/-- The result of one step: whether it returned an error, and the world
afterwards. -/
structure Step where
  failed : Bool
  world : World
  deriving DecidableEq

/-- The loop of `EnumerateAndRemoveZIPFiles`: `true` when an `os.Remove` failed,
and the entries that are left. -/
def removeZIPFiles : List DirEntry → Bool × List DirEntry
  | [] => (false, [])
  | entry :: rest =>
    if entry.IsDir || decide (Ext entry.Name ≠ ".zip".toList) then
      ((removeZIPFiles rest).1, entry :: (removeZIPFiles rest).2)
    else if entry.locked then (true, entry :: rest)
    else removeZIPFiles rest

/-- `EnumerateAndRemoveZIPFiles(dir)`. -/
def EnumerateAndRemoveZIPFiles (w : World) : Step :=
  match w.dir with
  | none => ⟨true, w⟩
  | some entries =>
    ⟨(removeZIPFiles entries).1, { w with dir := some (removeZIPFiles entries).2 }⟩

/-- Whether the goroutine of `ParallelCheckAndRemoveEmptyTXTFiles` for this
entry removes the file: a `.txt` file that opens, has size zero and can be
removed. -/
def removedAsEmpty (entry : DirEntry) : Bool :=
  if entry.IsDir || decide (Ext entry.Name ≠ ".txt".toList) then false
  else
    match entry.content with
    | none => false
    | some data => decide (data = []) && !entry.locked

/-- `ParallelCheckAndRemoveEmptyTXTFiles(dir)`.  Every goroutine acts on its own
file under the mutex, so the order in which they run does not matter. -/
def ParallelCheckAndRemoveEmptyTXTFiles (w : World) : Step :=
  match w.dir with
  | none => ⟨true, w⟩
  | some entries => ⟨false, { w with dir := some (entries.filter (fun e => !removedAsEmpty e)) }⟩

/-- The loop of `readAndFilterURLs` over the scanned lines. -/
def filterURLs (lines : List (List Char)) : List (List Char) :=
  lines.foldl (fun filteredURLs url =>
    if !HasPrefix url ['*'] then filteredURLs ++ [url] else filteredURLs) []

/-- `readAndFilterURLs(filePath)` for the file behind `entry`; `none` for an
error. -/
def readAndFilterURLs (entry : DirEntry) : Option (List (List Char)) :=
  match entry.content with
  | none => none
  | some data =>
    match scanLines data with
    | none => none
    | some lines => some (filterURLs lines)

/-- The entries for which `ParallelMergeURLFiles` starts a goroutine. -/
def mergeTasks (entries : List DirEntry) : List DirEntry :=
  entries.filter (fun e => !(e.IsDir || decide (Ext e.Name ≠ ".txt".toList)))

/-- What the goroutine of one entry appends to `mergedURLs`: nothing when
reading fails. -/
def taskURLs (entry : DirEntry) : List (List Char) :=
  (readAndFilterURLs entry).getD []

/-- The slice `mergedURLs` once all goroutines are done, when they took the
mutex in the order `order`. -/
def mergedURLs (order : List DirEntry) : List (List Char) :=
  order.foldl (fun merged entry => merged ++ taskURLs entry) []

/-- The order of `os.ReadDir`: by file name. -/
def nameLE (a b : DirEntry) : Prop := a.Name ≤ b.Name

instance : DecidableRel nameLE := fun a b => by unfold nameLE; infer_instance

/-- `os.Create(path)` followed by the writes, for a top-level entry `name` of
the directory: fails on a directory or a file that cannot be opened, truncates
an existing file, creates a missing one. -/
def createEntry (name data : List Char) (entries : List DirEntry) : Option (List DirEntry) :=
  match entries.find? (fun e => decide (e.Name = name)) with
  | some e =>
    if e.IsDir || e.content.isNone then none
    else some (entries.map (fun x => if x.Name = name then { x with content := some data } else x))
  | none => some (entries.orderedInsert nameLE ⟨name, false, some data, false⟩)

/-- `writeMergedURLs(outputFile, urls)`: `none` for an error. -/
def writeMergedURLs (t : Target) (w : World) (urls : List (List Char)) : Option World :=
  match t with
  | .elsewhere =>
    if w.createFails then none else some { w with outside := some (printLines urls) }
  | .entry name =>
    match w.dir with
    | none => none
    | some entries =>
      match createEntry name (printLines urls) entries with
      | none => none
      | some entries1 => some { w with dir := some entries1 }

/-- `ParallelMergeURLFiles(dir, outputFile)`, when the goroutines take the mutex
in the order `order`. -/
def ParallelMergeURLFiles (order : List DirEntry) (t : Target) (w : World) : Step :=
  match w.dir with
  | none => ⟨true, w⟩
  | some _ =>
    match writeMergedURLs t w (mergedURLs order) with
    | none => ⟨true, w⟩
    | some w1 => ⟨false, w1⟩

/-- The schedules of `ParallelMergeURLFiles` that can occur in `w`: every
goroutine started takes the mutex exactly once. -/
def IsSchedule (order : List DirEntry) (w : World) : Prop :=
  order.Perm (mergeTasks (w.dir.getD []))

instance (order : List DirEntry) (w : World) : Decidable (IsSchedule order w) := by
  unfold IsSchedule; infer_instance

/-- The world in which the merge step of `PerformPostProcess` runs: after the
two clean-up steps, whose errors are only logged. -/
def cleanUp (w : World) : World :=
  (ParallelCheckAndRemoveEmptyTXTFiles (EnumerateAndRemoveZIPFiles w).world).world

/-- `postprocess.PerformPostProcess(dir, outputFile)`; `order` is the schedule of
the merge step.  The errors of the three steps are only logged. -/
def PerformPostProcess (order : List DirEntry) (t : Target) (w : World) : World :=
  (ParallelMergeURLFiles order t (cleanUp w)).world

/-- The content of the file `outputFile` points at. -/
def World.output (t : Target) (w : World) : Option (List Char) :=
  match t with
  | .elsewhere => w.outside
  | .entry name =>
    match (w.dir.getD []).find? (fun e => decide (e.Name = name)) with
    | none => none
    | some e => if e.IsDir then none else e.content

/-- The lines of the file behind an entry, as `bufio.ScanLines` delimits them. -/
def entryLines (entry : DirEntry) : List (List Char) :=
  match entry.content with
  | none => []
  | some data => (fileLines data).map dropCR

/-- Whether a line begins with the wildcard marker. -/
def isWildcard (line : List Char) : Bool := HasPrefix line ['*']

/-- The merged file is not one of the files the merge reads: it lies outside the
directory, or its name does not end in `.txt`. -/
def Target.NotSource : Target → Prop
  | .elsewhere => True
  | .entry name => Ext name ≠ ".txt".toList

instance (t : Target) : Decidable t.NotSource := by
  cases t <;> unfold Target.NotSource <;> infer_instance

/-! ## Example directories -/

/-- The file `a.txt` of the example: one URL and one wildcard line. -/
def exampleA : DirEntry :=
  ⟨"a.txt".toList, false, some "http://x.com\n*skip.com\n".toList, false⟩

/-- The file `b.txt` of the example. -/
def exampleB : DirEntry := ⟨"b.txt".toList, false, some "http://y.com\n".toList, false⟩

/-- A second file holding the URL of `a.txt`. -/
def exampleC : DirEntry := ⟨"c.txt".toList, false, some "http://x.com\n".toList, false⟩

/-- The directory of the example, the merged file lying elsewhere. -/
def exampleWorld : World := ⟨some [exampleA, exampleB], none, false⟩

/-- A directory in which two files hold the same URL. -/
def duplicateWorld : World := ⟨some [exampleA, exampleC], none, false⟩

/-- The name `tenebra.txt` of the merged output file. -/
def mergedOutputFile : List Char := "tenebra.txt".toList

/-- The state of `tenebra.txt` after a first merge of `exampleWorld` into its
own directory. -/
def exampleMerged : DirEntry :=
  ⟨mergedOutputFile, false, some "http://x.com\nhttp://y.com\n".toList, false⟩

/-! ## Package `api` -/

/-- `strings.Contains(s, substr)`: `substr` starts at some position of `s`. -/
def Contains : List Char → List Char → Bool
  | [], substr => decide (substr = [])
  | c :: s, substr => HasPrefix (c :: s) substr || Contains s substr

/-- The tokens a `bufio.Scanner` yields before it stops: all lines, or the lines
before the first one that does not fit the buffer. -/
def scannedBeforeError (data : List Char) : List (List Char) :=
  ((fileLines data).takeWhile (fun l => decide (byteLen l < MaxScanTokenSize))).map dropCR

/-- `loadURLsIntoCache(filePath)`: `file` is the content of the file (`none` when
it cannot be opened); the result is the cache afterwards. -/
def loadURLsIntoCache (file : Option (List Char)) (urlCache : List (List Char)) :
    List (List Char) :=
  match file with
  | none => urlCache
  | some data => (scannedBeforeError data).foldl (fun cache line => cache ++ [line]) urlCache

/-- `searchURLsInCache(query)`: the slice `results` and the cache afterwards. -/
def searchURLsInCache (urlCache : List (List Char)) (query : List Char) :
    Slice (List Char) × List (List Char) :=
  (urlCache.foldl (fun results url =>
      if Contains url query then results.push url else results) none,
    urlCache)

/-- `url.Values.Get(key)`: the first value associated with the key, or the empty
string. -/
def Get (values : List (List Char × List Char)) (key : List Char) : List Char :=
  match values.find? (fun kv => decide (kv.1 = key)) with
  | none => []
  | some kv => kv.2

/-- What `SearchHandler` sends: the status code, the `Content-Type` header and
the body. -/
structure HTTPReply where
  status : Nat
  contentType : List Char
  body : List Char
  deriving DecidableEq

/-- `http.Error(w, msg, code)`. -/
def httpError (msg : List Char) (code : Nat) : HTTPReply :=
  ⟨code, "text/plain; charset=utf-8".toList, msg ++ ['\n']⟩

/-- `json.NewEncoder(w).Encode(v)` for a `[]string`: `null` for a nil slice, else
the array of the quoted elements; followed by a newline.  `quote` renders one
string as a JSON string literal. -/
def encodeStrings (quote : List Char → List Char) : Slice (List Char) → List Char
  | none => "null\n".toList
  | some l => '[' :: JoinStrings ',' (l.map quote) ++ "]\n".toList

/-- `SearchHandler(w, r)`: `values` are the parsed query parameters of the
request, `encodeFails` tells whether `Encode` returns an error. -/
def SearchHandler (quote : List Char → List Char) (encodeFails : Bool)
    (urlCache : List (List Char)) (values : List (List Char × List Char)) : HTTPReply :=
  let query := Get values "query".toList
  if query = [] then
    httpError "Query parameter 'query' is required".toList 400
  else
    let results := (searchURLsInCache urlCache query).1
    if encodeFails then httpError "Error encoding JSON response".toList 500
    else ⟨200, "application/json".toList, encodeStrings quote results⟩

/-- A JSON string literal for a string none of whose characters needs escaping. -/
def quotePlain (s : List Char) : List Char := '"' :: s ++ ['"']

/-! ## Example runs -/

/-- An archive with a single entry that climbs out of the destination. -/
def evilArchive : List ZipFile := [⟨"../evil.txt".toList, false, some "x".toList⟩]

/-- A zip reader that finds `evilArchive` in every file. -/
def readsEvil : List Char → Option (List ZipFile) := fun _ => some evilArchive

/-- An archive with a single ordinary file. -/
def plainArchive : List ZipFile := [⟨"a.txt".toList, false, some "http://x.com\n".toList⟩]

/-- An operating system on which every operation succeeds. -/
def allOK : FsOp → Bool := fun _ => true

/-- A working directory two levels below the root. -/
def homeUser : List (List Char) := ["home".toList, "user".toList]

/-- A manifest entry with the given name and archive URL. -/
def itemAt (name url : List Char) : Item :=
  ⟨name, [], url, 0, 0, false, [], false, []⟩

/-- A server that answers every request with status 200 and the same body. -/
def sameBody : List Char → Option Response := fun _ => some ⟨200, "PK".toList⟩

/-- A zip reader that finds `plainArchive` in every file. -/
def readsPlain : List Char → Option (List ZipFile) := fun _ => some plainArchive

/-- An environment for `FetchJSON`: the working directory is `/work`, the server
returns the empty manifest `[]`; the decoder and encoder cover the two empty
manifests, and the digest is replaced by the identity, which has no collisions. -/
def emptyManifestEnv : Env where
  getwd := some "/work".toList
  get := fun _ => some ⟨200, "[]".toList⟩
  decode := fun body =>
    if body = "[]".toList then some (some [])
    else if body = "null".toList then some none
    else none
  marshal := fun items =>
    match items with
    | none => some "null".toList
    | some [] => some "[]".toList
    | some (_ :: _) => none
  sha256hex := fun content => content

/-- A disk whose `input.json` already holds the empty manifest `[]`. -/
def freshCacheDisk : Disk where
  file := fun p => if p = "/work/input.json".toList then some "[]".toList else none
  readOnly := fun _ => false

/-- A disk whose `input.json` holds an older manifest. -/
def staleCacheDisk : Disk where
  file := fun p => if p = "/work/input.json".toList then some "null".toList else none
  readOnly := fun _ => false

/-! ## Lemmas on paths -/

theorem Split_ne_nil (sep : Char) (s : List Char) : Split sep s ≠ [] := by
  cases s with
  | nil => simp [Split]
  | cons c s =>
    simp only [Split]
    split
    · simp
    · split <;> simp

theorem Split_of_not_mem (sep : Char) (s : List Char) (h : sep ∉ s) :
    Split sep s = [s] := by
  induction s with
  | nil => rfl
  | cons c s ih =>
    have hc : c ≠ sep := fun e => h (by simp [e])
    have hs : sep ∉ s := fun m => h (List.mem_cons_of_mem _ m)
    simp [Split, hc, ih hs]

theorem Split_append_sep (sep : Char) (a b : List Char) :
    Split sep (a ++ sep :: b) = Split sep a ++ Split sep b := by
  induction a with
  | nil => simp [Split]
  | cons c a ih =>
    by_cases hc : c = sep
    · simp [Split, hc, ih]
    · have h1 := Split_ne_nil sep a
      cases hsa : Split sep a with
      | nil => exact absurd hsa h1
      | cons p ps =>
        simp [Split, hc, ih, hsa]

theorem JoinStrings_append_singleton (sep : Char) (l : List (List Char)) (f : List Char) :
    JoinStrings sep (l ++ [f]) =
      (if l = [] then [] else JoinStrings sep l ++ [sep]) ++ f := by
  induction l with
  | nil => simp [JoinStrings]
  | cons p l ih =>
    cases l with
    | nil => simp [JoinStrings]
    | cons q l =>
      have e : p :: q :: l ++ [f] = p :: (q :: l ++ [f]) := rfl
      rw [e]
      simp only [List.cons_append] at ih ⊢
      simp only [JoinStrings]
      rw [ih]
      simp

theorem cleanStep_plain (rooted : Bool) (stack : List (List Char)) (f : List Char)
    (hf : IsPlainName f) : cleanStep rooted stack f = f :: stack := by
  obtain ⟨h1, h2, h3, _⟩ := hf
  simp [cleanStep, h1, h2, h3]

theorem isRooted_append (a b : List Char) (ha : a ≠ []) :
    isRooted (a ++ b) = isRooted a := by
  cases a with
  | nil => exact absurd rfl ha
  | cons c a => rfl

theorem Clean_plain (f : List Char) (hf : IsPlainName f) : Clean f = f := by
  have hsep := hf.2.2.2
  have hr : isRooted f = false := by
    cases f with
    | nil => rfl
    | cons c f =>
      have : c ≠ Separator := fun e => hsep (by simp [e])
      simp [isRooted, this]
  simp [Clean, hr, Split_of_not_mem _ _ hsep, cleanComponents, cleanStep_plain _ _ _ hf,
    JoinStrings, hf.1]

theorem Join_plain (a f : List Char) (hf : IsPlainName f) :
    Join a f = joinStem a ++ f := by
  by_cases ha : a = []
  · subst ha
    simp [Join, joinStem, hf.1, Clean_plain f hf]
  · have hsep := hf.2.2.2
    simp only [Join, ha, ne_eq, not_false_eq_true, if_true, joinStem, if_false]
    simp only [Clean, isRooted_append a _ ha, Split_append_sep, Split_of_not_mem _ _ hsep,
      cleanComponents, List.foldl_append, List.foldl_cons, List.foldl_nil,
      cleanStep_plain _ _ _ hf, List.reverse_cons, JoinStrings_append_singleton]
    by_cases hr : isRooted a = true
    · simp [hr]
    · simp only [hr, Bool.false_eq_true, if_false, List.nil_append]
      have : ((if (List.foldl (cleanStep false) [] (Split Separator a)).reverse = [] then []
          else JoinStrings Separator (List.foldl (cleanStep false) [] (Split Separator a)).reverse
            ++ [Separator]) ++ f) ≠ [] := by
        simp [hf.1]
      simp only [Bool.not_eq_true] at hr
      rw [if_neg this]

theorem Join_plain_injective (a f g : List Char) (hf : IsPlainName f) (hg : IsPlainName g)
    (h : Join a f = Join a g) : f = g := by
  rw [Join_plain a f hf, Join_plain a g hg] at h
  exact List.append_cancel_left h

theorem not_mem_of_mem_Split (sep : Char) (s : List Char) :
    ∀ p ∈ Split sep s, sep ∉ p := by
  induction s with
  | nil => intro p hp; simp [Split] at hp; simp [hp]
  | cons c s ih =>
    intro p hp
    by_cases hc : c = sep
    · simp only [Split, hc, if_true, List.mem_cons] at hp
      rcases hp with rfl | hp
      · simp
      · exact ih p hp
    · cases hsa : Split sep s with
      | nil => exact absurd hsa (Split_ne_nil sep s)
      | cons q qs =>
        simp only [Split, hc, if_false, hsa, List.mem_cons] at hp
        rw [hsa] at ih
        rcases hp with rfl | hp
        · have := ih q (by simp)
          simp only [List.mem_cons, not_or]
          exact ⟨fun e => hc e.symm, this⟩
        · exact ih p (by simp [hp])

theorem HasPrefix_iff (s p : List Char) : HasPrefix s p = true ↔ p <+: s := by
  induction s generalizing p with
  | nil =>
    cases p with
    | nil => simp [HasPrefix]
    | cons a p => simp [HasPrefix]
  | cons c s ih =>
    cases p with
    | nil => simp [HasPrefix]
    | cons a p =>
      by_cases h : c = a
      · subst h
        simp [HasPrefix, ih, List.cons_prefix_cons]
      · have h2 : ¬ a = c := fun e => h e.symm
        simp [HasPrefix, h, h2, List.cons_prefix_cons]

/-! ## Cleaned paths and their components -/

theorem Split_JoinStrings (sep : Char) (cs : List (List Char)) (hne : cs ≠ [])
    (h : ∀ c ∈ cs, sep ∉ c) : Split sep (JoinStrings sep cs) = cs := by
  induction cs with
  | nil => exact absurd rfl hne
  | cons p cs ih =>
    cases cs with
    | nil => exact Split_of_not_mem sep p (h p (by simp))
    | cons q cs =>
      simp only [JoinStrings]
      rw [Split_append_sep, Split_of_not_mem sep p (h p (by simp)),
        ih (by simp) (fun c hc => h c (by simp [hc]))]
      rfl

theorem JoinStrings_append (sep : Char) (l r : List (List Char)) (hl : l ≠ [])
    (hr : r ≠ []) :
    JoinStrings sep (l ++ r) = JoinStrings sep l ++ sep :: JoinStrings sep r := by
  induction l with
  | nil => exact absurd rfl hl
  | cons p l ih =>
    cases l with
    | nil =>
      cases r with
      | nil => exact absurd rfl hr
      | cons q r => simp [JoinStrings]
    | cons q l =>
      have e : p :: q :: l ++ r = p :: (q :: l ++ r) := rfl
      rw [e]
      simp only [List.cons_append] at ih ⊢
      simp only [JoinStrings]
      rw [ih (by simp)]
      simp

theorem StackOK_nil : StackOK [] := ⟨by simp, List.chain'_nil⟩

theorem StackOK_tail (top : List Char) (rest : List (List Char))
    (h : StackOK (top :: rest)) : StackOK rest :=
  ⟨fun x hx => h.1 x (by simp [hx]), h.2.tail⟩

theorem cleanStep_ok (rooted : Bool) (stack : List (List Char)) (c : List Char)
    (hs : StackOK stack) (hc : Separator ∉ c) : StackOK (cleanStep rooted stack c) := by
  unfold cleanStep
  split
  · exact hs
  · rename_i h1
    have hc1 : c ≠ [] ∧ c ≠ ['.'] := by
      constructor
      · exact fun e => h1 (Or.inl e)
      · exact fun e => h1 (Or.inr e)
    split
    · rename_i h2
      cases stack with
      | nil =>
        simp only
        split
        · exact StackOK_nil
        · exact ⟨by simp [hc1.1, hc1.2, hc], List.chain'_singleton _⟩
      | cons top rest =>
        simp only
        split
        · rename_i h3
          refine ⟨?_, ?_⟩
          · intro x hx
            rcases List.mem_cons.1 hx with rfl | hx
            · exact ⟨hc1.1, hc1.2, hc⟩
            · exact hs.1 x hx
          · exact List.Chain'.cons (fun _ => h3) hs.2
        · exact StackOK_tail top rest hs
    · rename_i h2
      refine ⟨?_, ?_⟩
      · intro x hx
        rcases List.mem_cons.1 hx with rfl | hx
        · exact ⟨hc1.1, hc1.2, hc⟩
        · exact hs.1 x hx
      · cases stack with
        | nil => exact List.chain'_singleton _
        | cons top rest => exact List.Chain'.cons (fun e => absurd e h2) hs.2

theorem foldl_cleanStep_ok (rooted : Bool) (comps : List (List Char))
    (stack : List (List Char)) (hs : StackOK stack) (hc : ∀ c ∈ comps, Separator ∉ c) :
    StackOK (comps.foldl (cleanStep rooted) stack) := by
  induction comps generalizing stack with
  | nil => exact hs
  | cons c cs ih =>
    exact ih _ (cleanStep_ok rooted stack c hs (hc c (by simp)))
      (fun x hx => hc x (by simp [hx]))

theorem cleanStack_ok (p : List Char) : StackOK (cleanStack p) :=
  foldl_cleanStep_ok _ _ _ StackOK_nil (not_mem_of_mem_Split Separator p)

theorem JoinStrings_ne_nil (sep : Char) (cs : List (List Char)) (hne : cs ≠ [])
    (h : ∀ c ∈ cs, c ≠ []) : JoinStrings sep cs ≠ [] := by
  cases cs with
  | nil => exact absurd rfl hne
  | cons p cs =>
    cases cs with
    | nil => exact h p (by simp)
    | cons q cs =>
      simp only [JoinStrings]
      intro e
      exact h p (by simp) (List.append_eq_nil.1 e).1

theorem isRooted_JoinStrings (cs : List (List Char))
    (h : ∀ c ∈ cs, c ≠ [] ∧ Separator ∉ c) : isRooted (JoinStrings Separator cs) = false := by
  cases cs with
  | nil => rfl
  | cons p cs =>
    obtain ⟨hp, hsep⟩ := h p (by simp)
    cases p with
    | nil => exact absurd rfl hp
    | cons a p =>
      have ha : a ≠ Separator := fun e => hsep (by simp [e])
      cases cs with
      | nil => simp [JoinStrings, isRooted, ha]
      | cons q cs => simp [JoinStrings, isRooted, ha]

theorem walkStep_plain (stack : List (List Char)) (c : List Char) (hc : IsPlainName c) :
    walkStep stack c = c :: stack := by
  obtain ⟨h1, h2, h3, _⟩ := hc
  simp [walkStep, h1, h2, h3]

theorem foldl_walkStep_plain (cs : List (List Char)) (stack : List (List Char))
    (h : ∀ c ∈ cs, IsPlainName c) : cs.foldl walkStep stack = cs.reverse ++ stack := by
  induction cs generalizing stack with
  | nil => rfl
  | cons c cs ih =>
    rw [List.foldl_cons, walkStep_plain stack c (h c (by simp)),
      ih _ (fun x hx => h x (by simp [hx]))]
    simp

theorem plain_above_anchor (above : List (List Char)) (top : List Char)
    (rest : List (List Char)) (h : StackOK (above ++ top :: rest))
    (htop : top ≠ ['.', '.']) : ∀ x ∈ above, IsPlainName x := by
  induction above with
  | nil => intro x hx; simp at hx
  | cons a above ih =>
    have htail : StackOK (above ++ top :: rest) := StackOK_tail a _ h
    have ih1 := ih htail
    intro x hx
    rcases List.mem_cons.1 hx with rfl | hx
    · obtain ⟨g1, g2, g3⟩ := h.1 x (by simp)
      refine ⟨g1, g2, ?_, g3⟩
      intro e
      have hchain := h.2
      cases above with
      | nil =>
        simp only [List.nil_append, List.cons_append, List.chain'_cons] at hchain
        exact htop (hchain.1 e)
      | cons b above =>
        simp only [List.cons_append, List.chain'_cons] at hchain
        exact (ih1 b (by simp)).2.2.1 (hchain.1 e)
    · exact ih1 x hx

/-- Walking the cleaned components reaches the same place as walking the
original ones. -/
theorem walk_cleanStep (rooted : Bool) (init : List (List Char))
    (hinit : rooted = true → init = []) (stack : List (List Char)) (c : List Char)
    (hs : StackOK stack)
    (hroot : rooted = true → ∀ x ∈ stack, x ≠ ['.', '.']) :
    (cleanStep rooted stack c).reverse.foldl walkStep init
      = walkStep (stack.reverse.foldl walkStep init) c := by
  unfold cleanStep
  split
  · rename_i h1
    simp [walkStep, h1]
  · rename_i h1
    split
    · rename_i h2
      subst h2
      cases stack with
      | nil =>
        simp only
        split
        · rename_i hr
          simp [walkStep, hinit hr]
        · simp
      | cons top rest =>
        simp only
        split
        · simp
        · rename_i h3
          have htop : IsPlainName top := by
            obtain ⟨g1, g2, g3⟩ := hs.1 top (by simp)
            exact ⟨g1, g2, h3, g3⟩
          simp only [List.reverse_cons, List.foldl_append, List.foldl_cons, List.foldl_nil]
          rw [walkStep_plain _ top htop]
          simp [walkStep]
    · simp

theorem cleanStep_rooted_no_dotdot (stack : List (List Char)) (c : List Char)
    (h : ∀ x ∈ stack, x ≠ ['.', '.']) : ∀ x ∈ cleanStep true stack c, x ≠ ['.', '.'] := by
  unfold cleanStep
  split
  · exact h
  · split
    · cases stack with
      | nil => simp
      | cons top rest =>
        simp only
        split
        · rename_i h3
          exact absurd h3 (h top (by simp))
        · exact fun x hx => h x (by simp [hx])
    · rename_i h2
      intro x hx
      rcases List.mem_cons.1 hx with rfl | hx
      · exact h2
      · exact h x hx

theorem walk_clean (rooted : Bool) (init : List (List Char))
    (hinit : rooted = true → init = []) (comps : List (List Char))
    (hc : ∀ c ∈ comps, Separator ∉ c) (stack : List (List Char)) (hs : StackOK stack)
    (hroot : rooted = true → ∀ x ∈ stack, x ≠ ['.', '.']) :
    (comps.foldl (cleanStep rooted) stack).reverse.foldl walkStep init
      = comps.foldl walkStep (stack.reverse.foldl walkStep init) := by
  induction comps generalizing stack with
  | nil => rfl
  | cons c cs ih =>
    simp only [List.foldl_cons]
    rw [ih (fun x hx => hc x (by simp [hx])) _
      (cleanStep_ok rooted stack c hs (hc c (by simp)))]
    · rw [walk_cleanStep rooted init hinit stack c hs hroot]
    · intro hr x hx
      subst hr
      exact cleanStep_rooted_no_dotdot stack c (hroot rfl) x hx

theorem Clean_eq (p : List Char) :
    Clean p =
      if isRooted p = true then Separator :: JoinStrings Separator (cleanStack p).reverse
      else if JoinStrings Separator (cleanStack p).reverse = [] then ['.']
      else JoinStrings Separator (cleanStack p).reverse := rfl

theorem cleanStack_reverse_good (p : List Char) :
    ∀ c ∈ (cleanStack p).reverse, c ≠ [] ∧ Separator ∉ c := by
  intro c hc
  obtain ⟨h1, _, h3⟩ := (cleanStack_ok p).1 c (List.mem_reverse.1 hc)
  exact ⟨h1, h3⟩

theorem foldl_walkStep_dot (init : List (List Char)) :
    (Split Separator ['.']).foldl walkStep init = init := by
  have : Split Separator ['.'] = [['.']] := by decide
  rw [this]
  simp [walkStep]

theorem isRooted_Clean (p : List Char) : isRooted (Clean p) = isRooted p := by
  rw [Clean_eq]
  cases hr : isRooted p with
  | true => simp [isRooted]
  | false =>
    simp only [Bool.false_eq_true, if_false]
    split
    · decide
    · exact isRooted_JoinStrings _ (cleanStack_reverse_good p)

theorem walk_Split_Clean (p : List Char) (init : List (List Char)) :
    (Split Separator (Clean p)).foldl walkStep init
      = (cleanStack p).reverse.foldl walkStep init := by
  rw [Clean_eq]
  have hgood := cleanStack_reverse_good p
  by_cases hnil : (cleanStack p).reverse = []
  · rw [hnil]
    split
    · simp [JoinStrings, Split, walkStep]
    · simp only [JoinStrings, if_true]
      rw [foldl_walkStep_dot]
      rfl
  · have hsplit := Split_JoinStrings Separator _ hnil (fun c hc => (hgood c hc).2)
    have hne := JoinStrings_ne_nil Separator _ hnil (fun c hc => (hgood c hc).1)
    rw [if_neg hne]
    split
    · simp only [Split, if_true, List.foldl_cons, hsplit]
      simp [walkStep]
    · rw [hsplit]

theorem resolve_eq_walk (cwd : List (List Char)) (p : List Char) :
    resolve cwd p =
      ((cleanStack p).reverse.foldl walkStep
        (if isRooted p = true then [] else cwd.reverse)).reverse := by
  unfold resolve cleanStack
  congr 1
  have h := walk_clean (isRooted p) (if isRooted p = true then [] else cwd.reverse)
    (fun hr => by simp [hr]) (Split Separator p) (not_mem_of_mem_Split Separator p) []
    StackOK_nil (fun _ x hx => by simp at hx)
  simpa using h.symm

theorem resolve_Clean (cwd : List (List Char)) (p : List Char) :
    resolve cwd (Clean p) = resolve cwd p := by
  rw [resolve_eq_walk cwd p]
  unfold resolve
  rw [isRooted_Clean, walk_Split_Clean]

/-- When a cleaned path begins with another cleaned path followed by a
separator, its components are those of the other path followed by at least one
more. -/
theorem components_of_prefix (p q : List Char) (hroot : isRooted q = isRooted p)
    (hp : cleanStack p ≠ [])
    (h : HasPrefix (Clean q) (Clean p ++ [Separator]) = true) :
    ∃ more, more ≠ [] ∧ (cleanStack q).reverse = (cleanStack p).reverse ++ more := by
  have hp1 : (cleanStack p).reverse ≠ [] := by simpa using hp
  have hgp := cleanStack_reverse_good p
  have hgq := cleanStack_reverse_good q
  have hnep := JoinStrings_ne_nil Separator _ hp1 (fun c hc => (hgp c hc).1)
  rw [HasPrefix_iff] at h
  -- the statement on the bodies of the two paths
  have hbody : ∃ rest, JoinStrings Separator (cleanStack q).reverse
      = JoinStrings Separator (cleanStack p).reverse ++ Separator :: rest := by
    rw [Clean_eq q, Clean_eq p, hroot] at h
    cases hr : isRooted p with
    | true =>
      simp only [hr, if_true, List.cons_append, List.cons_prefix_cons, true_and] at h
      obtain ⟨rest, hrest⟩ := h
      exact ⟨rest, by rw [← hrest]; simp⟩
    | false =>
      simp only [hr, Bool.false_eq_true, if_false, if_neg hnep] at h
      split at h
      · obtain ⟨rest, hrest⟩ := h
        have hlen := congrArg List.length hrest
        simp only [List.length_append, List.length_cons, List.length_nil] at hlen
        have hpos : 0 < (JoinStrings Separator (cleanStack p).reverse).length :=
          List.length_pos.2 hnep
        omega
      · obtain ⟨rest, hrest⟩ := h
        exact ⟨rest, by rw [← hrest]; simp⟩
  obtain ⟨rest, hrest⟩ := hbody
  have hq1 : (cleanStack q).reverse ≠ [] := by
    intro e
    rw [e] at hrest
    simp [JoinStrings] at hrest
  have hsq := Split_JoinStrings Separator _ hq1 (fun c hc => (hgq c hc).2)
  have hsp := Split_JoinStrings Separator _ hp1 (fun c hc => (hgp c hc).2)
  rw [hrest, Split_append_sep, hsp] at hsq
  exact ⟨Split Separator rest, Split_ne_nil _ _, hsq.symm⟩

/-! ## The traversal check on an anchored destination -/

theorem cleanStack_of_anchored (dest : List Char) (ha : Anchored dest = true) :
    ∃ top rest, cleanStack dest = top :: rest ∧ top ≠ ['.', '.'] := by
  unfold Anchored at ha
  cases hs : cleanStack dest with
  | nil => simp [hs] at ha
  | cons top rest =>
    simp only [hs, decide_eq_true_eq] at ha
    exact ⟨top, rest, rfl, ha⟩

theorem ne_nil_of_anchored (dest : List Char) (ha : Anchored dest = true) : dest ≠ [] := by
  intro e
  subst e
  exact absurd ha (by decide)

theorem cleanStack_append (dest name : List Char) (hd : dest ≠ []) :
    cleanStack (dest ++ Separator :: name)
      = (Split Separator name).foldl (cleanStep (isRooted dest)) (cleanStack dest) := by
  unfold cleanStack
  rw [isRooted_append dest _ hd, Split_append_sep, List.foldl_append]

/-- The shape of an accepted entry: the components of the joined path are those
of the destination followed by one or more plain names. -/
theorem accepted_components (dest name : List Char) (ha : Anchored dest = true)
    (h : zipSlipCheck dest name = true) :
    ∃ more, more ≠ [] ∧ (∀ x ∈ more, IsPlainName x) ∧
      Join dest name = Clean (dest ++ Separator :: name) ∧
      (cleanStack (dest ++ Separator :: name)).reverse = (cleanStack dest).reverse ++ more := by
  have hd := ne_nil_of_anchored dest ha
  obtain ⟨top, rest, hstack, htop⟩ := cleanStack_of_anchored dest ha
  have hjoin : Join dest name = Clean (dest ++ Separator :: name) := by simp [Join, hd]
  unfold zipSlipCheck at h
  rw [hjoin] at h
  obtain ⟨more, hmore, hcomps⟩ := components_of_prefix dest (dest ++ Separator :: name)
    (isRooted_append dest _ hd) (by rw [hstack]; simp) h
  refine ⟨more, hmore, ?_, hjoin, hcomps⟩
  have hq : cleanStack (dest ++ Separator :: name) = more.reverse ++ top :: rest := by
    have := congrArg List.reverse hcomps
    simpa [hstack] using this
  have hok := cleanStack_ok (dest ++ Separator :: name)
  rw [hq] at hok
  intro x hx
  exact plain_above_anchor more.reverse top rest hok htop x (List.mem_reverse.2 hx)

theorem resolve_accepted (cwd : List (List Char)) (dest name : List Char)
    (more : List (List Char)) (hd : dest ≠ []) (hplain : ∀ x ∈ more, IsPlainName x)
    (hcomps : (cleanStack (dest ++ Separator :: name)).reverse
      = (cleanStack dest).reverse ++ more) :
    resolve cwd (Clean (dest ++ Separator :: name)) = resolve cwd dest ++ more := by
  rw [resolve_Clean, resolve_eq_walk, resolve_eq_walk cwd dest, hcomps,
    isRooted_append dest _ hd, List.foldl_append, foldl_walkStep_plain more _ hplain]
  simp

/-- On an anchored destination the traversal check is sound: an entry it accepts
resolves strictly below the destination, whatever the working directory. -/
theorem zipSlipCheck_sound (cwd : List (List Char)) (dest name : List Char)
    (ha : Anchored dest = true) (h : zipSlipCheck dest name = true) :
    strictlyWithin cwd dest (Join dest name) = true := by
  obtain ⟨more, hmore, hplain, hjoin, hcomps⟩ := accepted_components dest name ha h
  have hres := resolve_accepted cwd dest name more (ne_nil_of_anchored dest ha) hplain hcomps
  rw [hjoin]
  unfold strictlyWithin within
  rw [hres]
  simp [hmore]

theorem dropWhile_to_separator (last rest : List Char) (h : ∀ c ∈ last, c ≠ Separator) :
    (last ++ Separator :: rest).dropWhile (fun c => decide (c ≠ Separator))
      = Separator :: rest := by
  induction last with
  | nil => simp [List.dropWhile]
  | cons a last ih =>
    have ha : a ≠ Separator := h a (by simp)
    simp only [List.cons_append, List.dropWhile_cons, ha, ne_eq, not_false_eq_true,
      decide_True, if_true]
    exact ih (fun c hc => h c (by simp [hc]))

theorem upToLastSeparator (front last : List Char) (h : Separator ∉ last) :
    ((front ++ Separator :: last).reverse.dropWhile (fun c => decide (c ≠ Separator))).reverse
      = front ++ [Separator] := by
  have hrev : (front ++ Separator :: last).reverse
      = last.reverse ++ Separator :: front.reverse := by simp
  rw [hrev, dropWhile_to_separator last.reverse front.reverse
    (fun c hc e => h (by rw [← e]; exact List.mem_reverse.1 hc))]
  simp

theorem walk_trailing_separator (front : List Char) (init : List (List Char)) :
    (Split Separator (front ++ [Separator])).foldl walkStep init
      = (Split Separator front).foldl walkStep init := by
  rw [Split_append_sep, List.foldl_append]
  simp [Split, walkStep]

/-- The directory of an accepted entry resolves to the destination followed by
all but the last of the additional names. -/
theorem resolve_Dir_accepted (cwd : List (List Char)) (dest name : List Char)
    (more : List (List Char)) (ha : Anchored dest = true) (hmore : more ≠ [])
    (hplain : ∀ x ∈ more, IsPlainName x)
    (hcomps : (cleanStack (dest ++ Separator :: name)).reverse
      = (cleanStack dest).reverse ++ more) :
    resolve cwd (Dir (Clean (dest ++ Separator :: name)))
      = resolve cwd dest ++ more.dropLast := by
  have hd := ne_nil_of_anchored dest ha
  obtain ⟨top, rest, hstack, _⟩ := cleanStack_of_anchored dest ha
  have hlast := List.dropLast_append_getLast hmore
  have hlastPlain : IsPlainName (more.getLast hmore) := hplain _ (List.getLast_mem hmore)
  -- the components before the last one
  have hfront : (cleanStack dest).reverse ++ more.dropLast ≠ [] := by
    rw [hstack]; simp
  have hfrontGood : ∀ c ∈ (cleanStack dest).reverse ++ more.dropLast,
      c ≠ [] ∧ Separator ∉ c := by
    intro c hc
    rcases List.mem_append.1 hc with hc | hc
    · exact cleanStack_reverse_good dest c hc
    · have := hplain c (List.dropLast_subset _ hc)
      exact ⟨this.1, this.2.2.2⟩
  have hbody : JoinStrings Separator (cleanStack (dest ++ Separator :: name)).reverse
      = JoinStrings Separator ((cleanStack dest).reverse ++ more.dropLast)
        ++ Separator :: more.getLast hmore := by
    rw [hcomps]
    conv_lhs => rw [← hlast, ← List.append_assoc, JoinStrings_append_singleton, if_neg hfront]
    simp
  have hJne := JoinStrings_ne_nil Separator _ hfront (fun c hc => (hfrontGood c hc).1)
  have hJsplit := Split_JoinStrings Separator _ hfront (fun c hc => (hfrontGood c hc).2)
  have hJroot := isRooted_JoinStrings _ hfrontGood
  have hwalk : ∀ init : List (List Char),
      ((cleanStack dest).reverse ++ more.dropLast).foldl walkStep init
        = more.dropLast.reverse ++ (cleanStack dest).reverse.foldl walkStep init := by
    intro init
    rw [List.foldl_append, foldl_walkStep_plain _ _
      (fun x hx => hplain x (List.dropLast_subset _ hx))]
  unfold Dir
  rw [resolve_Clean, Clean_eq, isRooted_append dest _ hd, hbody]
  rw [resolve_eq_walk cwd dest]
  cases hr : isRooted dest with
  | true =>
    simp only [if_true]
    have e : Separator :: (JoinStrings Separator ((cleanStack dest).reverse ++ more.dropLast)
        ++ Separator :: more.getLast hmore)
        = (Separator :: JoinStrings Separator ((cleanStack dest).reverse ++ more.dropLast))
          ++ Separator :: more.getLast hmore := rfl
    rw [e, upToLastSeparator _ _ hlastPlain.2.2.2]
    unfold resolve
    rw [walk_trailing_separator]
    simp only [List.cons_append, isRooted, decide_True, if_true, Split, List.foldl_cons]
    rw [hJsplit]
    have : walkStep [] [] = [] := by simp [walkStep]
    rw [this, hwalk]
    simp
  | false =>
    simp only [Bool.false_eq_true, if_false]
    have hne : JoinStrings Separator ((cleanStack dest).reverse ++ more.dropLast)
        ++ Separator :: more.getLast hmore ≠ [] := by simp
    rw [if_neg hne, upToLastSeparator _ _ hlastPlain.2.2.2]
    unfold resolve
    rw [walk_trailing_separator, isRooted_append _ _ hJne, hJroot, hJsplit]
    simp only [Bool.false_eq_true, if_false]
    rw [hwalk]
    simp

theorem within_of_accepted (cwd : List (List Char)) (dest name : List Char)
    (ha : Anchored dest = true) (h : zipSlipCheck dest name = true) :
    within cwd dest (Join dest name) = true ∧
      within cwd dest (Dir (Join dest name)) = true := by
  obtain ⟨more, hmore, hplain, hjoin, hcomps⟩ := accepted_components dest name ha h
  constructor
  · have := zipSlipCheck_sound cwd dest name ha h
    unfold strictlyWithin at this
    simp only [Bool.and_eq_true] at this
    exact this.1
  · rw [hjoin]
    unfold within
    rw [resolve_Dir_accepted cwd dest name more ha hmore hplain hcomps]
    simp

/-- On an anchored destination every path `unzip` creates or writes lies in the
tree of the destination, whatever the archive holds. -/
theorem unzipFiles_within (ok : FsOp → Bool) (cwd : List (List Char)) (dest : List Char)
    (ha : Anchored dest = true) (files : List ZipFile) :
    ∀ op ∈ (unzipFiles ok dest files).trace, within cwd dest op.path = true := by
  induction files with
  | nil => intro op hop; simp [unzipFiles] at hop
  | cons file rest ih =>
    unfold unzipFiles
    simp only
    split
    · intro op hop; simp at hop
    · rename_i hcheck
      have hacc : zipSlipCheck dest file.Name = true := by
        unfold zipSlipCheck
        simpa using hcheck
      obtain ⟨hw1, hw2⟩ := within_of_accepted cwd dest file.Name ha hacc
      split
      · intro op hop
        simp only [List.mem_append] at hop
        rcases hop with hop | hop
        · split at hop
          · simp only [List.mem_singleton] at hop
            subst hop
            exact hw1
          · simp at hop
        · exact ih op hop
      · split
        · intro op hop; simp at hop
        · split
          · intro op hop
            simp only [List.mem_singleton] at hop
            subst hop
            exact hw2
          · split
            · intro op hop
              simp only [List.mem_cons, List.mem_singleton, List.not_mem_nil, or_false] at hop
              rcases hop with rfl | rfl
              · exact hw2
              · exact hw1
            · split
              · intro op hop
                simp only [List.mem_cons, List.mem_singleton, List.not_mem_nil,
                  or_false] at hop
                rcases hop with rfl | rfl
                · exact hw2
                · exact hw1
              · intro op hop
                simp only [List.mem_cons] at hop
                rcases hop with rfl | rfl | rfl | hop
                · exact hw2
                · exact hw1
                · exact hw1
                · exact ih op hop

/-- On an anchored destination an archive holding an entry that does not resolve
strictly below the destination makes `unzip` return an error. -/
theorem unzipFiles_rejects (ok : FsOp → Bool) (cwd : List (List Char)) (dest : List Char)
    (ha : Anchored dest = true) (files : List ZipFile) (bad : ZipFile) (hbad : bad ∈ files)
    (hout : strictlyWithin cwd dest (Join dest bad.Name) = false) :
    (unzipFiles ok dest files).err ≠ none := by
  induction files with
  | nil => simp at hbad
  | cons file rest ih =>
    unfold unzipFiles
    simp only
    split
    · simp
    · rename_i hcheck
      have hacc : zipSlipCheck dest file.Name = true := by
        unfold zipSlipCheck
        simpa using hcheck
      have hin := zipSlipCheck_sound cwd dest file.Name ha hacc
      have hrest : bad ∈ rest := by
        rcases List.mem_cons.1 hbad with rfl | h
        · rw [hin] at hout
          exact absurd hout (by simp)
        · exact h
      split
      · exact ih hrest
      · split
        · simp
        · split
          · simp
          · split
            · simp
            · split
              · simp
              · exact ih hrest

theorem cleanStack_rooted_plain (p : List Char) (hr : isRooted p = true) :
    ∀ x ∈ cleanStack p, IsPlainName x := by
  have hno : ∀ (comps stack : List (List Char)), (∀ x ∈ stack, x ≠ ['.', '.']) →
      ∀ x ∈ comps.foldl (cleanStep true) stack, x ≠ ['.', '.'] := by
    intro comps
    induction comps with
    | nil => intro stack h; exact h
    | cons c cs ih =>
      intro stack h
      exact ih _ (cleanStep_rooted_no_dotdot stack c h)
  intro x hx
  obtain ⟨g1, g2, g3⟩ := (cleanStack_ok p).1 x hx
  refine ⟨g1, g2, ?_, g3⟩
  unfold cleanStack at hx
  rw [hr] at hx
  exact hno _ [] (by simp) x hx

theorem resolve_rooted (cwd : List (List Char)) (p : List Char) (hr : isRooted p = true) :
    resolve cwd p = (cleanStack p).reverse := by
  rw [resolve_eq_walk, hr, if_pos rfl, foldl_walkStep_plain _ _
    (fun x hx => cleanStack_rooted_plain p hr x (List.mem_reverse.1 hx))]
  simp

/-- On an anchored absolute destination the traversal check is also complete: it
accepts every entry that resolves strictly below the destination. -/
theorem zipSlipCheck_complete (cwd : List (List Char)) (dest name : List Char)
    (ha : Anchored dest = true) (hr : isRooted dest = true)
    (h : strictlyWithin cwd dest (Join dest name) = true) :
    zipSlipCheck dest name = true := by
  have hd := ne_nil_of_anchored dest ha
  obtain ⟨top, rest, hstack, _⟩ := cleanStack_of_anchored dest ha
  have hjoin : Join dest name = Clean (dest ++ Separator :: name) := by simp [Join, hd]
  have hrq : isRooted (dest ++ Separator :: name) = true := by
    rw [isRooted_append dest _ hd, hr]
  unfold strictlyWithin within at h
  rw [hjoin, resolve_Clean, resolve_rooted cwd dest hr, resolve_rooted cwd _ hrq] at h
  simp only [Bool.and_eq_true, decide_eq_true_eq] at h
  obtain ⟨⟨more, hmore⟩, hne⟩ := h
  have hmore1 : more ≠ [] := by
    intro e
    rw [e, List.append_nil] at hmore
    exact hne hmore
  have hD : (cleanStack dest).reverse ≠ [] := by rw [hstack]; simp
  unfold zipSlipCheck
  rw [hjoin, HasPrefix_iff, Clean_eq dest, Clean_eq (dest ++ Separator :: name), hrq, hr,
    if_pos rfl, if_pos rfl, ← hmore,
    JoinStrings_append Separator _ _ hD hmore1]
  exact ⟨JoinStrings Separator more, by simp⟩

/-- For an anchored absolute destination the traversal check accepts exactly the
entries that resolve strictly below the destination. -/
theorem zipSlipCheck_iff (cwd : List (List Char)) (dest name : List Char)
    (ha : Anchored dest = true) (hr : isRooted dest = true) :
    zipSlipCheck dest name = true ↔ strictlyWithin cwd dest (Join dest name) = true :=
  ⟨zipSlipCheck_sound cwd dest name ha, zipSlipCheck_complete cwd dest name ha hr⟩

/-! ## `timemachine.FetchJSON` -/

theorem inputJSON_ne_newJSON (cwd : List Char) :
    Join cwd inputJSONFileName ≠ Join cwd newJSONFileName := by
  intro h
  have := Join_plain_injective cwd _ _ (by decide) (by decide) h
  exact absurd this (by decide)

theorem FetchAndParseJSON_ok (env : Env) (d : Disk) (url filePath bytes : List Char)
    (resp : Response) (items : Slice Item)
    (hget : env.get url = some resp) (hstatus : resp.StatusCode = 200)
    (hdecode : env.decode resp.Body = some items) (hmarshal : env.marshal items = some bytes)
    (hw : d.readOnly filePath = false) :
    FetchAndParseJSON env d url filePath =
      (some items, { d with file := fun q => if q = filePath then some bytes else d.file q }) := by
  simp [FetchAndParseJSON, hget, hstatus, hdecode, hmarshal, Disk.WriteFile, hw]

/-- C2: when the cache file `input.json` exists and the fetch succeeds, `FetchJSON`
returns `changed = false` and leaves the cache content as it was if the cache
bytes equal the serialization of the fetched manifest, and otherwise returns
`changed = true` with the cache holding exactly that serialization.  The code
compares SHA-256 digests, so the two byte strings are assumed not to collide. -/
theorem FetchJSON_cache_sync (env : Env) (d : Disk) (cwd old bytes : List Char)
    (resp : Response) (items : Slice Item)
    (hcwd : env.getwd = some cwd)
    (hcache : d.file (Join cwd inputJSONFileName) = some old)
    (hget : env.get jsonURL = some resp) (hstatus : resp.StatusCode = 200)
    (hdecode : env.decode resp.Body = some items) (hmarshal : env.marshal items = some bytes)
    (hnew : d.readOnly (Join cwd newJSONFileName) = false)
    (hcol : env.sha256hex old = env.sha256hex bytes → old = bytes) :
    (old = bytes →
      ∃ d1, FetchJSON env d = .done items false d1 ∧
        d1.file (Join cwd inputJSONFileName) = some old) ∧
    (old ≠ bytes → d.readOnly (Join cwd inputJSONFileName) = false →
      ∃ d1, FetchJSON env d = .done items true d1 ∧
        d1.file (Join cwd inputJSONFileName) = some bytes) := by
  have hne := inputJSON_ne_newJSON cwd
  have hfetch := FetchAndParseJSON_ok env d jsonURL (Join cwd newJSONFileName) bytes resp items
    hget hstatus hdecode hmarshal hnew
  constructor
  · intro heq
    subst heq
    refine ⟨Disk.mk (fun q =>
      if q = Join cwd newJSONFileName then some old else d.file q) d.readOnly, ?_, ?_⟩
    · simp [FetchJSON, hcwd, hcache, hfetch, hne, hmarshal, compareFileHashes]
    · simp [hne, hcache]
  · intro hdiff hinput
    have hh : ¬ env.sha256hex old = env.sha256hex bytes := fun e => hdiff (hcol e)
    refine ⟨Disk.mk (fun q =>
      if q = Join cwd newJSONFileName then none
      else if q = Join cwd inputJSONFileName then some bytes
      else if q = Join cwd newJSONFileName then some bytes else d.file q) d.readOnly, ?_, ?_⟩
    · simp [FetchJSON, hcwd, hcache, hfetch, hne, hmarshal, compareFileHashes,
        calculateFileHash, hh, Disk.WriteFile, Disk.Remove, hinput, hnew]
    · simp [hne]


/-! ## Lines and merging -/

theorem HasPrefix_star (u : List Char) : HasPrefix u ['*'] = decide (u.head? = some '*') := by
  cases u with
  | nil => rfl
  | cons c u =>
    by_cases h : c = '*' <;> simp [HasPrefix, h]

theorem filterURLs_eq_filter (lines : List (List Char)) :
    filterURLs lines = lines.filter (fun url => !HasPrefix url ['*']) := by
  have key : ∀ (acc : List (List Char)),
      lines.foldl (fun filteredURLs url =>
        if !HasPrefix url ['*'] then filteredURLs ++ [url] else filteredURLs) acc
        = acc ++ lines.filter (fun url => !HasPrefix url ['*']) := by
    induction lines with
    | nil => intro acc; simp
    | cons l ls ih =>
      intro acc
      simp only [List.foldl_cons, ih, List.filter_cons]
      split <;> simp
  simpa [filterURLs] using key []

theorem mergedURLs_eq_flatMap (order : List DirEntry) :
    mergedURLs order = order.flatMap taskURLs := by
  have key : ∀ (acc : List (List Char)),
      order.foldl (fun merged entry => merged ++ taskURLs entry) acc
        = acc ++ order.flatMap taskURLs := by
    induction order with
    | nil => intro acc; simp
    | cons e es ih => intro acc; simp [ih]
  simpa [mergedURLs] using key []

theorem not_mem_of_mem_fileLines (data : List Char) :
    ∀ l ∈ fileLines data, '\n' ∉ l := by
  intro l hl
  apply not_mem_of_mem_Split '\n' data
  unfold fileLines at hl
  simp only at hl
  split at hl
  · exact List.dropLast_subset _ hl
  · exact hl

theorem not_mem_dropCR (line : List Char) (h : '\n' ∉ line) : '\n' ∉ dropCR line := by
  unfold dropCR
  split
  · exact fun m => h (List.dropLast_subset _ m)
  · exact h

theorem not_mem_of_mem_taskURLs (e : DirEntry) : ∀ l ∈ taskURLs e, '\n' ∉ l := by
  intro l hl
  unfold taskURLs readAndFilterURLs at hl
  cases hc : e.content with
  | none => simp [hc] at hl
  | some data =>
    simp only [hc] at hl
    cases hs : scanLines data with
    | none => simp [hs] at hl
    | some lines =>
      simp only [hs, Option.getD_some, filterURLs_eq_filter, List.mem_filter] at hl
      unfold scanLines at hs
      simp only at hs
      split at hs
      · simp only [Option.some.injEq] at hs
        subst hs
        obtain ⟨hl1, _⟩ := hl
        rw [List.mem_map] at hl1
        obtain ⟨r, hr, rfl⟩ := hl1
        exact not_mem_dropCR r (not_mem_of_mem_fileLines data r hr)
      · exact absurd hs (by simp)

theorem Split_printLines (ls : List (List Char)) (h : ∀ l ∈ ls, '\n' ∉ l) :
    Split '\n' (printLines ls) = ls ++ [[]] := by
  induction ls with
  | nil => simp [printLines, Split]
  | cons l ls ih =>
    have hl : '\n' ∉ l := h l (by simp)
    have hls : ∀ x ∈ ls, '\n' ∉ x := fun x hx => h x (by simp [hx])
    simp only [printLines, Split_append_sep, Split_of_not_mem _ _ hl, ih hls]
    simp

theorem fileLines_printLines (ls : List (List Char)) (h : ∀ l ∈ ls, '\n' ∉ l) :
    fileLines (printLines ls) = ls := by
  simp [fileLines, Split_printLines ls h]

theorem fileLines_merged (order : List DirEntry) :
    fileLines (printLines (mergedURLs order)) = order.flatMap taskURLs := by
  rw [fileLines_printLines, mergedURLs_eq_flatMap]
  intro l hl
  rw [mergedURLs_eq_flatMap, List.mem_flatMap] at hl
  obtain ⟨e, _, he⟩ := hl
  exact not_mem_of_mem_taskURLs e l he

theorem find?_orderedInsert_new (p : DirEntry → Bool) (a : DirEntry) (l : List DirEntry)
    (ha : p a = true) (hl : l.find? p = none) :
    (l.orderedInsert nameLE a).find? p = some a := by
  induction l with
  | nil => simp [ha]
  | cons b l ih =>
    rw [List.find?_cons] at hl
    cases hb : p b with
    | true => simp [hb] at hl
    | false =>
      simp only [hb] at hl
      simp only [List.orderedInsert]
      split
      · simp [ha]
      · simp [hb, ih hl]

theorem find?_createEntry (name data : List Char) (entries entries1 : List DirEntry)
    (h : createEntry name data entries = some entries1) :
    ∃ e, entries1.find? (fun e => decide (e.Name = name)) = some e ∧
      e.IsDir = false ∧ e.content = some data := by
  unfold createEntry at h
  cases hf : entries.find? (fun e => decide (e.Name = name)) with
  | none =>
    simp only [hf, Option.some.injEq] at h
    subst h
    exact ⟨_, find?_orderedInsert_new _ _ _ (by simp) hf, rfl, rfl⟩
  | some e =>
    simp only [hf] at h
    split at h
    · exact absurd h (by simp)
    · rename_i hcond
      simp only [Option.some.injEq] at h
      subst h
      have hname : e.Name = name := by
        have := List.find?_some hf
        simpa using this
      refine ⟨{ e with content := some data }, ?_, ?_, rfl⟩
      · rw [List.find?_map]
        have hcomp : ((fun e : DirEntry => decide (e.Name = name)) ∘
            fun x : DirEntry => if x.Name = name then { x with content := some data } else x)
            = fun e : DirEntry => decide (e.Name = name) := by
          funext x
          simp only [Function.comp]
          split <;> simp_all
        rw [hcomp, hf]
        simp [hname]
      · simp only [Bool.or_eq_true, not_or, Bool.not_eq_true] at hcond
        exact hcond.1

theorem output_writeMergedURLs (t : Target) (w w1 : World) (urls : List (List Char))
    (h : writeMergedURLs t w urls = some w1) : w1.output t = some (printLines urls) := by
  cases t with
  | elsewhere =>
    simp only [writeMergedURLs] at h
    split at h
    · exact absurd h (by simp)
    · simp only [Option.some.injEq] at h
      subst h
      rfl
  | entry name =>
    simp only [writeMergedURLs] at h
    cases hd : w.dir with
    | none => simp [hd] at h
    | some entries =>
      simp only [hd] at h
      cases hc : createEntry name (printLines urls) entries with
      | none => simp [hc] at h
      | some entries1 =>
        simp only [hc, Option.some.injEq] at h
        subst h
        obtain ⟨e, he, hdir, hcont⟩ := find?_createEntry _ _ _ _ hc
        simp [World.output, he, hdir, hcont]

theorem output_ParallelMergeURLFiles (order : List DirEntry) (t : Target) (w : World)
    (hok : (ParallelMergeURLFiles order t w).failed = false) :
    (ParallelMergeURLFiles order t w).world.output t = some (printLines (mergedURLs order)) := by
  unfold ParallelMergeURLFiles at hok ⊢
  cases hd : w.dir with
  | none => simp [hd] at hok
  | some entries =>
    simp only [hd] at hok ⊢
    cases hw : writeMergedURLs t w (mergedURLs order) with
    | none => simp [hw] at hok
    | some w1 =>
      simp only [hw]
      exact output_writeMergedURLs t w w1 _ hw

theorem taskURLs_of_readable (e : DirEntry) (h : (readAndFilterURLs e).isSome = true) :
    taskURLs e = (entryLines e).filter (fun l => !isWildcard l) := by
  unfold taskURLs entryLines
  unfold readAndFilterURLs at h ⊢
  cases hc : e.content with
  | none => simp [hc] at h
  | some data =>
    simp only [hc] at h ⊢
    cases hs : scanLines data with
    | none => simp [hs] at h
    | some lines =>
      simp only [Option.getD_some, filterURLs_eq_filter]
      unfold scanLines at hs
      simp only at hs
      split at hs
      · simp only [Option.some.injEq] at hs
        subst hs
        rfl
      · exact absurd hs (by simp)

theorem not_isWildcard_of_mem_taskURLs (e : DirEntry) :
    ∀ l ∈ taskURLs e, isWildcard l = false := by
  intro l hl
  unfold taskURLs readAndFilterURLs at hl
  cases hc : e.content with
  | none => simp [hc] at hl
  | some data =>
    simp only [hc] at hl
    cases hs : scanLines data with
    | none => simp [hs] at hl
    | some lines =>
      simp only [hs, Option.getD_some, filterURLs_eq_filter, List.mem_filter] at hl
      simpa [isWildcard] using hl.2

/-- C3: when every top-level `.txt` file of the directory is readable and
`ParallelMergeURLFiles` succeeds, the lines of the output file are the lines of
those files that do not begin with `*`: block by block in the order the
goroutines ran, each block in file order; hence, as a multiset, exactly the
surviving lines of all the files, and no line begins with `*`. -/
theorem ParallelMergeURLFiles_lines (order : List DirEntry) (t : Target) (w : World)
    (hsched : IsSchedule order w)
    (hread : ∀ e ∈ mergeTasks (w.dir.getD []), (readAndFilterURLs e).isSome = true)
    (hok : (ParallelMergeURLFiles order t w).failed = false) :
    ∃ content, (ParallelMergeURLFiles order t w).world.output t = some content ∧
      fileLines content = order.flatMap (fun e => (entryLines e).filter (fun l => !isWildcard l)) ∧
      (fileLines content).Perm
        ((mergeTasks (w.dir.getD [])).flatMap
          (fun e => (entryLines e).filter (fun l => !isWildcard l))) ∧
      ∀ l ∈ fileLines content, isWildcard l = false := by
  refine ⟨_, output_ParallelMergeURLFiles order t w hok, ?_, ?_, ?_⟩
  · rw [fileLines_merged]
    apply List.flatMap_congr
    intro e he
    exact taskURLs_of_readable e (hread e (hsched.subset he))
  · rw [fileLines_merged]
    refine (List.Perm.flatMap_right _ hsched).trans ?_
    apply List.Perm.of_eq
    apply List.flatMap_congr
    intro e he
    exact taskURLs_of_readable e (hread e he)
  · rw [fileLines_merged]
    intro l hl
    rw [List.mem_flatMap] at hl
    obtain ⟨e, _, he⟩ := hl
    exact not_isWildcard_of_mem_taskURLs e l he

/-- Witness for C3: the directory with `a.txt` = `http://x.com`, `*skip.com` and
`b.txt` = `http://y.com`, the goroutine of `b.txt` running first; the merged
file holds exactly `http://y.com` and `http://x.com`. -/
theorem ParallelMergeURLFiles_lines_witness :
    (∃ content,
      (ParallelMergeURLFiles [exampleB, exampleA] .elsewhere exampleWorld).world.output
        .elsewhere = some content ∧
      fileLines content =
        [exampleB, exampleA].flatMap (fun e => (entryLines e).filter (fun l => !isWildcard l)) ∧
      (fileLines content).Perm
        ((mergeTasks (exampleWorld.dir.getD [])).flatMap
          (fun e => (entryLines e).filter (fun l => !isWildcard l))) ∧
      ∀ l ∈ fileLines content, isWildcard l = false) ∧
    (ParallelMergeURLFiles [exampleB, exampleA] .elsewhere exampleWorld).world.output
      .elsewhere = some "http://y.com\nhttp://x.com\n".toList :=
  ⟨ParallelMergeURLFiles_lines [exampleB, exampleA] .elsewhere exampleWorld
    (by decide) (by decide) (by decide), by decide⟩

/-- C8 fails: with `a.txt` and `c.txt` both holding `http://x.com`, the merged
file holds that URL twice. -/
theorem merge_keeps_duplicates :
    IsSchedule [exampleA, exampleC] duplicateWorld ∧
    (ParallelMergeURLFiles [exampleA, exampleC] .elsewhere duplicateWorld).failed = false ∧
    (ParallelMergeURLFiles [exampleA, exampleC] .elsewhere duplicateWorld).world.output
      .elsewhere = some "http://x.com\nhttp://x.com\n".toList ∧
    (fileLines "http://x.com\nhttp://x.com\n".toList).count "http://x.com".toList = 2 := by
  decide

theorem two_le_sum_of_two_mem (f : DirEntry → Nat) (l : List DirEntry) (e1 e2 : DirEntry)
    (h1 : e1 ∈ l) (h2 : e2 ∈ l) (hne : e1 ≠ e2) (hf1 : 1 ≤ f e1) (hf2 : 1 ≤ f e2) :
    2 ≤ (l.map f).sum := by
  have p1 : l.Perm (e1 :: l.erase e1) := List.perm_cons_erase h1
  have h2e : e2 ∈ l.erase e1 := (List.mem_erase_of_ne (Ne.symm hne)).2 h2
  have p2 : (l.erase e1).Perm (e2 :: (l.erase e1).erase e2) := List.perm_cons_erase h2e
  have p : l.Perm (e1 :: e2 :: (l.erase e1).erase e2) := p1.trans (List.Perm.cons e1 p2)
  rw [(p.map f).sum_eq]
  simp only [List.map_cons, List.sum_cons]
  omega

/-- C8 as amended: the merge does not deduplicate.  When every top-level `.txt`
file is readable and `ParallelMergeURLFiles` succeeds, every URL occurs in the
merged file exactly as many times as it occurs, in total, among the lines of
the source `.txt` files that do not begin with `*`; for a URL that is not a
wildcard line this is the total number of its occurrences in the source files,
so a URL that occurs in two different source files occurs at least twice in
the merged file. -/
theorem ParallelMergeURLFiles_count (order : List DirEntry) (t : Target) (w : World)
    (hsched : IsSchedule order w)
    (hread : ∀ e ∈ mergeTasks (w.dir.getD []), (readAndFilterURLs e).isSome = true)
    (hok : (ParallelMergeURLFiles order t w).failed = false) (url : List Char) :
    ∃ content, (ParallelMergeURLFiles order t w).world.output t = some content ∧
      (fileLines content).count url =
        ((mergeTasks (w.dir.getD [])).map
          (fun e => ((entryLines e).filter (fun l => !isWildcard l)).count url)).sum ∧
      (isWildcard url = false →
        (fileLines content).count url =
          ((mergeTasks (w.dir.getD [])).map (fun e => (entryLines e).count url)).sum) ∧
      (isWildcard url = false →
        ∀ e1 ∈ mergeTasks (w.dir.getD []), ∀ e2 ∈ mergeTasks (w.dir.getD []), e1 ≠ e2 →
          url ∈ entryLines e1 → url ∈ entryLines e2 → 2 ≤ (fileLines content).count url) := by
  have hcount : (fileLines (printLines (mergedURLs order))).count url =
      ((mergeTasks (w.dir.getD [])).map
        (fun e => ((entryLines e).filter (fun l => !isWildcard l)).count url)).sum := by
    have hperm := List.Perm.countP_eq (fun x => x == url)
      (List.Perm.flatMap_right taskURLs hsched)
    rw [fileLines_merged, List.count_eq_countP, hperm, ← List.count_eq_countP,
      List.count_flatMap]
    congr 1
    apply List.map_congr_left
    intro e he
    simp only [Function.comp]
    rw [taskURLs_of_readable e (hread e he)]
  have hplain : isWildcard url = false →
      (fileLines (printLines (mergedURLs order))).count url =
        ((mergeTasks (w.dir.getD [])).map (fun e => (entryLines e).count url)).sum := by
    intro hurl
    rw [hcount]
    congr 1
    apply List.map_congr_left
    intro e _
    exact List.count_filter (by simp [hurl])
  refine ⟨_, output_ParallelMergeURLFiles order t w hok, hcount, hplain, ?_⟩
  intro hurl e1 h1 e2 h2 hne hm1 hm2
  rw [hplain hurl]
  exact two_le_sum_of_two_mem _ _ e1 e2 h1 h2 hne
    (List.count_pos_iff.2 hm1) (List.count_pos_iff.2 hm2)

/-- Witness for C8 as amended: `http://x.com` occurs once in `a.txt` and once in
`c.txt`, and twice in the merged file. -/
theorem ParallelMergeURLFiles_count_witness :
    (∃ content,
      (ParallelMergeURLFiles [exampleC, exampleA] .elsewhere duplicateWorld).world.output
        .elsewhere = some content ∧
      (fileLines content).count "http://x.com".toList =
        ((mergeTasks (duplicateWorld.dir.getD [])).map
          (fun e => ((entryLines e).filter (fun l => !isWildcard l)).count
            "http://x.com".toList)).sum ∧
      (isWildcard "http://x.com".toList = false →
        (fileLines content).count "http://x.com".toList =
          ((mergeTasks (duplicateWorld.dir.getD [])).map
            (fun e => (entryLines e).count "http://x.com".toList)).sum) ∧
      (isWildcard "http://x.com".toList = false →
        ∀ e1 ∈ mergeTasks (duplicateWorld.dir.getD []),
          ∀ e2 ∈ mergeTasks (duplicateWorld.dir.getD []), e1 ≠ e2 →
            "http://x.com".toList ∈ entryLines e1 → "http://x.com".toList ∈ entryLines e2 →
              2 ≤ (fileLines content).count "http://x.com".toList)) ∧
    (ParallelMergeURLFiles [exampleC, exampleA] .elsewhere duplicateWorld).world.output
      .elsewhere = some "http://x.com\nhttp://x.com\n".toList ∧
    (fileLines "http://x.com\nhttp://x.com\n".toList).count "http://x.com".toList = 2 ∧
    (entryLines exampleA).count "http://x.com".toList = 1 ∧
    (entryLines exampleC).count "http://x.com".toList = 1 :=
  ⟨ParallelMergeURLFiles_count [exampleC, exampleA] .elsewhere duplicateWorld
    (by decide) (by decide) (by decide) "http://x.com".toList, by decide, by decide,
    by decide, by decide⟩

/-! ## `PerformPostProcess` run twice -/

theorem mergeTasks_removeZIPFiles (entries : List DirEntry) :
    mergeTasks (removeZIPFiles entries).2 = mergeTasks entries := by
  induction entries with
  | nil => rfl
  | cons e es ih =>
    unfold removeZIPFiles
    split
    · rename_i h
      simp only [mergeTasks, List.filter_cons] at ih ⊢
      rw [ih]
    · rename_i h
      have hzip : Ext e.Name = ".zip".toList := by
        simp only [Bool.or_eq_true, decide_eq_true_eq, not_or, Bool.not_eq_true,
          Decidable.not_not] at h
        exact h.2
      split
      · rfl
      · rw [ih]
        have hno : (!(e.IsDir || decide (Ext e.Name ≠ ".txt".toList))) = false := by
          rw [hzip]
          cases e.IsDir <;> decide
        show mergeTasks es = mergeTasks (e :: es)
        unfold mergeTasks
        rw [List.filter_cons, hno]
        simp

theorem cleanUp_dir (w : World) :
    (cleanUp w).dir =
      w.dir.map (fun es => (removeZIPFiles es).2.filter (fun e => !removedAsEmpty e)) := by
  unfold cleanUp EnumerateAndRemoveZIPFiles ParallelCheckAndRemoveEmptyTXTFiles
  cases hd : w.dir with
  | none => simp [hd]
  | some es => simp

theorem cleanUp_outside (w : World) :
    (cleanUp w).outside = w.outside ∧ (cleanUp w).createFails = w.createFails := by
  unfold cleanUp EnumerateAndRemoveZIPFiles ParallelCheckAndRemoveEmptyTXTFiles
  cases hd : w.dir with
  | none => simp [hd]
  | some es => simp

theorem mergeTasks_filter (q : DirEntry → Bool) (entries : List DirEntry) :
    mergeTasks (entries.filter q) = (mergeTasks entries).filter q := by
  simp only [mergeTasks, List.filter_filter]
  apply List.filter_congr
  intro x _
  exact Bool.and_comm _ _

theorem mergeTasks_cleanUp (w : World) :
    mergeTasks ((cleanUp w).dir.getD []) =
      (mergeTasks (w.dir.getD [])).filter (fun e => !removedAsEmpty e) := by
  rw [cleanUp_dir]
  cases hd : w.dir with
  | none => rfl
  | some es =>
    simp only [Option.map_some', Option.getD_some]
    rw [mergeTasks_filter, mergeTasks_removeZIPFiles]

theorem PerformPostProcess_elsewhere (order : List DirEntry) (w : World)
    (hdir : w.dir.isSome = true) (hcreate : w.createFails = false) :
    PerformPostProcess order .elsewhere w =
      { cleanUp w with outside := some (printLines (mergedURLs order)) } := by
  have h1 : (cleanUp w).dir.isSome = true := by
    rw [cleanUp_dir]
    cases hd : w.dir with
    | none => simp [hd] at hdir
    | some es => rfl
  have h2 : (cleanUp w).createFails = false := by rw [(cleanUp_outside w).2, hcreate]
  unfold PerformPostProcess ParallelMergeURLFiles
  cases hd : (cleanUp w).dir with
  | none => simp [hd] at h1
  | some es => simp [writeMergedURLs, h2]

theorem length_printLines (ls : List (List Char)) :
    (printLines ls).length = (ls.map (fun l => l.length + 1)).sum := by
  induction ls with
  | nil => rfl
  | cons l ls ih =>
    simp only [printLines, List.length_append, List.length_cons, ih, List.map_cons,
      List.sum_cons]
    omega

/-- C4 fails as stated.  First, with the merged file outside the directory, two
runs whose goroutines are scheduled differently write different bytes.  Second,
with the merged file `tenebra.txt` inside the directory, the second run reads
the result of the first and the file grows. -/
theorem PerformPostProcess_not_idempotent :
    (IsSchedule [exampleA, exampleB] (cleanUp exampleWorld) ∧
      IsSchedule [exampleB, exampleA]
        (cleanUp (PerformPostProcess [exampleA, exampleB] .elsewhere exampleWorld)) ∧
      (PerformPostProcess [exampleA, exampleB] .elsewhere exampleWorld).output .elsewhere
        = some "http://x.com\nhttp://y.com\n".toList ∧
      (PerformPostProcess [exampleB, exampleA] .elsewhere
        (PerformPostProcess [exampleA, exampleB] .elsewhere exampleWorld)).output .elsewhere
        = some "http://y.com\nhttp://x.com\n".toList) ∧
    (IsSchedule [exampleA, exampleB, exampleMerged]
        (cleanUp (PerformPostProcess [exampleA, exampleB] (.entry mergedOutputFile)
          exampleWorld)) ∧
      (PerformPostProcess [exampleA, exampleB] (.entry mergedOutputFile) exampleWorld).output
        (.entry mergedOutputFile) = some "http://x.com\nhttp://y.com\n".toList ∧
      (PerformPostProcess [exampleA, exampleB, exampleMerged] (.entry mergedOutputFile)
        (PerformPostProcess [exampleA, exampleB] (.entry mergedOutputFile)
          exampleWorld)).output (.entry mergedOutputFile)
        = some "http://x.com\nhttp://y.com\nhttp://x.com\nhttp://y.com\n".toList) := by
  decide

theorem removeZIPFiles_sublist (entries : List DirEntry) :
    (removeZIPFiles entries).2.Sublist entries := by
  induction entries with
  | nil => exact List.Sublist.refl _
  | cons e es ih =>
    unfold removeZIPFiles
    split
    · exact List.Sublist.cons₂ e ih
    · split
      · exact List.Sublist.refl _
      · exact List.Sublist.cons e ih

theorem cleanUp_sublist (w : World) (es : List DirEntry) (h : w.dir = some es) :
    ∃ es1, (cleanUp w).dir = some es1 ∧ es1.Sublist es := by
  refine ⟨(removeZIPFiles es).2.filter (fun e => !removedAsEmpty e), ?_,
    (List.filter_sublist _).trans (removeZIPFiles_sublist es)⟩
  rw [cleanUp_dir, h]
  rfl

theorem filter_orderedInsert_of_false (p : DirEntry → Bool) (a : DirEntry)
    (l : List DirEntry) (ha : p a = false) :
    (l.orderedInsert nameLE a).filter p = l.filter p := by
  induction l with
  | nil => simp [ha]
  | cons b l ih =>
    simp only [List.orderedInsert]
    split
    · simp [List.filter_cons, ha]
    · simp only [List.filter_cons, ih]

theorem filter_map_of_fixed (p : DirEntry → Bool) (f : DirEntry → DirEntry)
    (l : List DirEntry) (h1 : ∀ x, p (f x) = p x) (h2 : ∀ x, p x = true → f x = x) :
    (l.map f).filter p = l.filter p := by
  induction l with
  | nil => rfl
  | cons b l ih =>
    simp only [List.map_cons, List.filter_cons, h1, ih]
    split
    · rename_i hb
      rw [h2 b hb]
    · rfl

theorem mergeTasks_createEntry (name data : List Char) (es es1 : List DirEntry)
    (h : createEntry name data es = some es1) (hext : Ext name ≠ ".txt".toList) :
    mergeTasks es1 = mergeTasks es := by
  unfold createEntry at h
  cases hf : es.find? (fun e => decide (e.Name = name)) with
  | none =>
    simp only [hf, Option.some.injEq] at h
    subst h
    unfold mergeTasks
    apply filter_orderedInsert_of_false
    have hd : decide (Ext name ≠ ".txt".toList) = true := decide_eq_true hext
    simp only [hd, Bool.or_true, Bool.not_true]
  | some e =>
    simp only [hf] at h
    split at h
    · exact absurd h (by simp)
    · simp only [Option.some.injEq] at h
      subst h
      unfold mergeTasks
      apply filter_map_of_fixed
      · intro x
        split <;> rfl
      · intro x hx
        split
        · rename_i hn
          simp only [hn, Bool.not_eq_true', Bool.or_eq_false_iff, decide_eq_false_iff_not,
            Decidable.not_not] at hx
          exact absurd hx.2 hext
        · rfl

theorem createEntry_named (name data : List Char) (es es1 : List DirEntry)
    (hn : (es.map DirEntry.Name).Nodup) (h : createEntry name data es = some es1) :
    ∀ x ∈ es1, x.Name = name → x.IsDir = false ∧ x.content.isSome = true := by
  unfold createEntry at h
  cases hf : es.find? (fun e => decide (e.Name = name)) with
  | none =>
    simp only [hf, Option.some.injEq] at h
    subst h
    intro x hx hname
    rw [List.mem_orderedInsert] at hx
    rcases hx with rfl | hx
    · exact ⟨rfl, rfl⟩
    · rw [List.find?_eq_none] at hf
      exact absurd (by simpa using hname) (hf x hx)
  | some e =>
    simp only [hf] at h
    split at h
    · exact absurd h (by simp)
    · rename_i hcond
      simp only [Option.some.injEq] at h
      subst h
      have he : e ∈ es := List.mem_of_find?_eq_some hf
      have hename : e.Name = name := by simpa using List.find?_some hf
      simp only [Bool.or_eq_true, not_or, Bool.not_eq_true] at hcond
      intro x hx hname
      rw [List.mem_map] at hx
      obtain ⟨y, hy, rfl⟩ := hx
      by_cases hyn : y.Name = name
      · have hye : y = e := List.inj_on_of_nodup_map hn hy he (hyn.trans hename.symm)
        subst hye
        simp only [hyn, if_true]
        exact ⟨hcond.1, rfl⟩
      · simp only [hyn, if_false] at hname

theorem createEntry_isSome (name data : List Char) (es : List DirEntry)
    (h : ∀ x ∈ es, x.Name = name → x.IsDir = false ∧ x.content.isSome = true) :
    (createEntry name data es).isSome = true := by
  unfold createEntry
  cases hf : es.find? (fun e => decide (e.Name = name)) with
  | none => rfl
  | some e =>
    have he : e ∈ es := List.mem_of_find?_eq_some hf
    have hename : e.Name = name := by simpa using List.find?_some hf
    obtain ⟨h1, h2⟩ := h e he hename
    simp only [h1, Bool.false_or]
    cases hc : e.content with
    | none => simp [hc] at h2
    | some c => rfl

/-- What the world looks like after a merge that did not fail. -/
theorem ParallelMergeURLFiles_ok (order : List DirEntry) (t : Target) (w : World)
    (hok : (ParallelMergeURLFiles order t w).failed = false) :
    writeMergedURLs t w (mergedURLs order) = some (ParallelMergeURLFiles order t w).world := by
  unfold ParallelMergeURLFiles at hok ⊢
  cases hd : w.dir with
  | none => simp [hd] at hok
  | some es =>
    simp only [hd] at hok ⊢
    cases hw : writeMergedURLs t w (mergedURLs order) with
    | none => simp [hw] at hok
    | some w1 => rfl

/-- C4 as amended: let the merged file not be one of the `.txt` files the merge
reads (it lies outside the output directory, or its name does not end in
`.txt`), and let the first run of `PerformPostProcess` write it without error.
Then a second run on what the first left also writes it, with the same lines up
to the order in which the goroutines append their blocks: the same multiset of
lines and the same number of bytes, and the same bytes when both runs take the
same schedule. -/
theorem PerformPostProcess_twice (order1 order2 : List DirEntry) (t : Target) (w : World)
    (ht : t.NotSource)
    (hnames : ((w.dir.getD []).map DirEntry.Name).Nodup)
    (hok : (ParallelMergeURLFiles order1 t (cleanUp w)).failed = false)
    (h1 : IsSchedule order1 (cleanUp w))
    (h2 : IsSchedule order2 (cleanUp (PerformPostProcess order1 t w))) :
    ∃ c1 c2,
      (PerformPostProcess order1 t w).output t = some c1 ∧
      (PerformPostProcess order2 t (PerformPostProcess order1 t w)).output t = some c2 ∧
      (fileLines c2).Perm (fileLines c1) ∧ c2.length = c1.length ∧
      (order2 = order1 → c2 = c1) := by
  have hw1 := ParallelMergeURLFiles_ok order1 t (cleanUp w) hok
  -- the directory the first merge ran in
  obtain ⟨es0, hes0⟩ : ∃ es0, (cleanUp w).dir = some es0 := by
    cases hd : (cleanUp w).dir with
    | none => simp [ParallelMergeURLFiles, hd] at hok
    | some es0 => exact ⟨es0, rfl⟩
  have hnames0 : (es0.map DirEntry.Name).Nodup := by
    cases hd : w.dir with
    | none => rw [cleanUp_dir, hd] at hes0; simp at hes0
    | some es =>
      obtain ⟨es1, he1, hsub⟩ := cleanUp_sublist w es hd
      rw [hes0, Option.some.injEq] at he1
      subst he1
      rw [hd] at hnames
      exact List.Nodup.sublist (hsub.map _) hnames
  -- the second merge reads the same files and does not fail
  have key : mergeTasks ((PerformPostProcess order1 t w).dir.getD []) = mergeTasks es0 ∧
      (ParallelMergeURLFiles order2 t (cleanUp (PerformPostProcess order1 t w))).failed
        = false := by
    cases t with
    | elsewhere =>
      simp only [writeMergedURLs] at hw1
      split at hw1
      · exact absurd hw1 (by simp)
      · rename_i hcf
        simp only [Option.some.injEq] at hw1
        have hdir1 : (PerformPostProcess order1 .elsewhere w).dir = some es0 := by
          unfold PerformPostProcess
          rw [← hw1]
          exact hes0
        have hcf1 : (PerformPostProcess order1 .elsewhere w).createFails = false := by
          unfold PerformPostProcess
          rw [← hw1]
          simpa using hcf
        refine ⟨by rw [hdir1]; rfl, ?_⟩
        obtain ⟨es2, hes2, _⟩ := cleanUp_sublist _ es0 hdir1
        have hcf2 := (cleanUp_outside (PerformPostProcess order1 .elsewhere w)).2
        rw [hcf1] at hcf2
        simp [ParallelMergeURLFiles, hes2, writeMergedURLs, hcf2]
    | entry name =>
      simp only [writeMergedURLs, hes0] at hw1
      cases hc : createEntry name (printLines (mergedURLs order1)) es0 with
      | none => simp [hc] at hw1
      | some es1 =>
        simp only [hc, Option.some.injEq] at hw1
        have hdir1 : (PerformPostProcess order1 (.entry name) w).dir = some es1 := by
          unfold PerformPostProcess
          rw [← hw1]
        refine ⟨?_, ?_⟩
        · rw [hdir1]
          exact mergeTasks_createEntry name _ es0 es1 hc ht
        · obtain ⟨es2, hes2, hsub⟩ := cleanUp_sublist _ es1 hdir1
          have hgood := createEntry_named name _ es0 es1 hnames0 hc
          have hsome := createEntry_isSome name (printLines (mergedURLs order2)) es2
            (fun x hx hn => hgood x (hsub.subset hx) hn)
          cases hc2 : createEntry name (printLines (mergedURLs order2)) es2 with
          | none => simp [hc2] at hsome
          | some es3 => simp [ParallelMergeURLFiles, hes2, writeMergedURLs, hc2]
  obtain ⟨htasks1, hok2⟩ := key
  have htasks : mergeTasks ((cleanUp (PerformPostProcess order1 t w)).dir.getD [])
      = mergeTasks ((cleanUp w).dir.getD []) := by
    rw [mergeTasks_cleanUp, htasks1]
    have : mergeTasks es0 = mergeTasks ((cleanUp w).dir.getD []) := by rw [hes0]; rfl
    rw [this, mergeTasks_cleanUp, List.filter_filter]
    simp
  have hperm : order2.Perm order1 := by
    unfold IsSchedule at h1 h2
    rw [htasks] at h2
    exact h2.trans h1.symm
  have hlines : (order2.flatMap taskURLs).Perm (order1.flatMap taskURLs) :=
    List.Perm.flatMap_right taskURLs hperm
  refine ⟨printLines (mergedURLs order1), printLines (mergedURLs order2), ?_, ?_, ?_, ?_, ?_⟩
  · exact output_ParallelMergeURLFiles order1 t (cleanUp w) hok
  · exact output_ParallelMergeURLFiles order2 t _ hok2
  · rw [fileLines_merged, fileLines_merged]
    exact hlines
  · rw [length_printLines, length_printLines, mergedURLs_eq_flatMap, mergedURLs_eq_flatMap]
    exact ((hlines.map _).sum_eq)
  · intro h
    rw [h]

/-- Witness for C4 as amended: the example directory, `b.txt` first in the
second run. -/
theorem PerformPostProcess_twice_witness :
    ∃ c1 c2,
      (PerformPostProcess [exampleA, exampleB] .elsewhere exampleWorld).output .elsewhere
        = some c1 ∧
      (PerformPostProcess [exampleB, exampleA] .elsewhere
        (PerformPostProcess [exampleA, exampleB] .elsewhere exampleWorld)).output .elsewhere
        = some c2 ∧
      (fileLines c2).Perm (fileLines c1) ∧ c2.length = c1.length ∧
      ([exampleB, exampleA] = [exampleA, exampleB] → c2 = c1) :=
  PerformPostProcess_twice [exampleA, exampleB] [exampleB, exampleA] .elsewhere exampleWorld
    (by decide) (by decide) (by decide) (by decide) (by decide)

/-! ## Package `api` -/

theorem Contains_iff (s q : List Char) : Contains s q = true ↔ q <:+: s := by
  induction s with
  | nil => simp [Contains]
  | cons c s ih =>
    simp only [Contains, Bool.or_eq_true, HasPrefix_iff, ih]
    constructor
    · rintro (h | h)
      · exact h.isInfix
      · exact h.trans (List.suffix_cons c s).isInfix
    · intro h
      rw [List.infix_cons_iff] at h
      exact h

theorem search_fold (urlCache : List (List Char)) (query : List Char)
    (acc : Slice (List Char)) :
    (urlCache.foldl (fun results url =>
        if Contains url query then results.push url else results) acc).elems
      = acc.elems ++ urlCache.filter (fun url => Contains url query) := by
  induction urlCache generalizing acc with
  | nil => simp
  | cons u us ih =>
    simp only [List.foldl_cons, ih, List.filter_cons]
    split <;> simp [Slice.push, Slice.elems]

theorem loadURLsIntoCache_eq (data : List Char) (urlCache : List (List Char)) :
    loadURLsIntoCache (some data) urlCache = urlCache ++ scannedBeforeError data := by
  unfold loadURLsIntoCache
  simp only
  generalize scannedBeforeError data = lines
  induction lines generalizing urlCache with
  | nil => simp
  | cons l ls ih => simp [ih]

/-- C6: `searchURLsInCache` returns exactly the cached entries that contain the
query as a substring, in cache order and with their multiplicity, and leaves the
cache as it was. -/
theorem searchURLsInCache_spec (urlCache : List (List Char)) (query : List Char) :
    (searchURLsInCache urlCache query).1.elems
        = urlCache.filter (fun url => decide (query <:+: url)) ∧
      (∀ url, (searchURLsInCache urlCache query).1.elems.count url
        = if query <:+: url then urlCache.count url else 0) ∧
      (searchURLsInCache urlCache query).1.elems.Sublist urlCache ∧
      (searchURLsInCache urlCache query).2 = urlCache := by
  have hfilter : (searchURLsInCache urlCache query).1.elems
      = urlCache.filter (fun url => decide (query <:+: url)) := by
    unfold searchURLsInCache
    rw [search_fold]
    simp only [Slice.elems, Option.getD_none, List.nil_append]
    apply List.filter_congr
    intro url _
    rw [Bool.eq_iff_iff]
    simp [Contains_iff]
  refine ⟨hfilter, ?_, ?_, rfl⟩
  · intro url
    rw [hfilter]
    by_cases h : query <:+: url
    · rw [if_pos h, List.count_filter (by simpa using h)]
    · rw [if_neg h]
      apply List.count_eq_zero_of_not_mem
      intro hm
      rw [List.mem_filter] at hm
      exact h (by simpa using hm.2)
  · rw [hfilter]
    exact List.filter_sublist _

theorem SearchHandler_bad_request (quote : List Char → List Char) (encodeFails : Bool)
    (urlCache : List (List Char)) (values : List (List Char × List Char))
    (h : Get values "query".toList = []) :
    (SearchHandler quote encodeFails urlCache values).status = 400 := by
  simp only [SearchHandler, h, if_true]
  rfl

theorem SearchHandler_ok (quote : List Char → List Char)
    (urlCache : List (List Char)) (values : List (List Char × List Char))
    (h : Get values "query".toList ≠ []) :
    SearchHandler quote false urlCache values =
      ⟨200, "application/json".toList,
        encodeStrings quote (searchURLsInCache urlCache (Get values "query".toList)).1⟩ := by
  simp only [SearchHandler, h, if_false]
  rfl

theorem search_fold_none (urlCache : List (List Char)) (query : List Char)
    (h : ∀ url ∈ urlCache, Contains url query = false) :
    (searchURLsInCache urlCache query).1 = none := by
  unfold searchURLsInCache
  induction urlCache with
  | nil => rfl
  | cons u us ih =>
    have hu : Contains u query = false := h u (by simp)
    simp only [List.foldl_cons, hu, Bool.false_eq_true, if_false]
    exact ih (fun url hm => h url (by simp [hm]))

/-- When no cached entry contains the query, the body `SearchHandler` sends is
the JSON value `null`, not an array. -/
theorem SearchHandler_no_match (quote : List Char → List Char)
    (urlCache : List (List Char)) (values : List (List Char × List Char))
    (h : Get values "query".toList ≠ [])
    (hno : ∀ url ∈ urlCache, Contains url (Get values "query".toList) = false) :
    SearchHandler quote false urlCache values =
      ⟨200, "application/json".toList, "null\n".toList⟩ := by
  rw [SearchHandler_ok quote urlCache values h, search_fold_none _ _ hno]
  rfl

/-- C5 at the failing input: the cache holds `http://x.com`, the request is
`/search?query=zzz`; the reply has status 200 and the body `null`, which is not
the empty JSON array `[]`. -/
theorem SearchHandler_null_body :
    SearchHandler quotePlain false ["http://x.com".toList] [("query".toList, "zzz".toList)]
        = ⟨200, "application/json".toList, "null\n".toList⟩ ∧
      SearchHandler quotePlain false ["http://x.com".toList] [("query".toList, "x.com".toList)]
        = ⟨200, "application/json".toList, "[\"http://x.com\"]\n".toList⟩ ∧
      (SearchHandler quotePlain false ["http://x.com".toList] []).status = 400 := by
  decide

/-! ## The traversal check of `unzip` -/

/-- C1 at the failing input: with `dest = ".."` the entry `../evil.txt` passes
the traversal check; `unzip` returns no error and creates `../../evil.txt`,
which lies outside `..` for a working directory two levels below the root. -/
theorem unzip_escapes_dotdot :
    zipSlipCheck "..".toList "../evil.txt".toList = true ∧
      unzip allOK (some evilArchive) "..".toList =
        ⟨none, [.mkdirAll "../..".toList, .create "../../evil.txt".toList,
          .write "../../evil.txt".toList "x".toList]⟩ ∧
      within homeUser "..".toList "../../evil.txt".toList = false ∧
      resolve homeUser "..".toList = ["home".toList] ∧
      resolve homeUser "../../evil.txt".toList = ["evil.txt".toList] ∧
      DownloadAndUnzip sameBody readsEvil allOK "https://a.example/x.zip".toList "..".toList =
        ⟨none, [.create "../x.zip".toList, .write "../x.zip".toList "PK".toList,
          .mkdirAll "../..".toList, .create "../../evil.txt".toList,
          .write "../../evil.txt".toList "x".toList]⟩ := by
  decide

/-- C10 at the failing inputs: with `dest = "."` and with `dest = "/"` the
entry `a.txt` resolves strictly inside `dest`, yet the check rejects it and
`unzip` returns the illegal-path error without extracting anything. -/
theorem unzip_rejects_inside_dot :
    strictlyWithin homeUser ".".toList (Join ".".toList "a.txt".toList) = true ∧
      zipSlipCheck ".".toList "a.txt".toList = false ∧
      unzip allOK (some plainArchive) ".".toList =
        ⟨some (.illegalFilePath "a.txt".toList), []⟩ ∧
      strictlyWithin homeUser "/".toList (Join "/".toList "a.txt".toList) = true ∧
      zipSlipCheck "/".toList "a.txt".toList = false ∧
      unzip allOK (some plainArchive) "/".toList =
        ⟨some (.illegalFilePath "/a.txt".toList), []⟩ := by
  decide

/-! ## Archive paths of `DownloadAndUnzip` -/

/-- C9 fails: two distinct archive URLs with the same last segment are saved to
the same archive path, and both tasks write the same paths. -/
theorem DownloadAndUnzip_shared_paths :
    "https://a.example/x.zip".toList ≠ "https://b.example/x.zip".toList ∧
      archivePath "https://a.example/x.zip".toList "./output".toList = "output/x.zip".toList ∧
      archivePath "https://b.example/x.zip".toList "./output".toList = "output/x.zip".toList ∧
      (DownloadAndUnzip sameBody readsPlain allOK "https://a.example/x.zip".toList
          "./output".toList).paths =
        ["output/x.zip".toList, "output/x.zip".toList, "output".toList,
          "output/a.txt".toList, "output/a.txt".toList] ∧
      (DownloadAndUnzip sameBody readsPlain allOK "https://b.example/x.zip".toList
          "./output".toList).paths =
        ["output/x.zip".toList, "output/x.zip".toList, "output".toList,
          "output/a.txt".toList, "output/a.txt".toList] ∧
      (ProcessItems sameBody readsPlain allOK
          [itemAt "a".toList "https://a.example/x.zip".toList,
            itemAt "b".toList "https://b.example/x.zip".toList] "./output".toList).map
          Outcome.paths =
        [["output/x.zip".toList, "output/x.zip".toList, "output".toList,
            "output/a.txt".toList, "output/a.txt".toList],
          ["output/x.zip".toList, "output/x.zip".toList, "output".toList,
            "output/a.txt".toList, "output/a.txt".toList]] := by
  decide

theorem lastToken_no_separator (url : List Char) : Separator ∉ lastToken url := by
  unfold lastToken
  apply not_mem_of_mem_Split Separator url
  have hne := Split_ne_nil Separator url
  rw [List.getLastD_eq_getLast?, List.getLast?_eq_getLast _ hne]
  exact List.getLast_mem hne

/-- C9 as amended: the archive path of a task is the output directory joined
with the last segment of its URL.  For URLs whose last segments are file names
(not empty, not `.`, not `..`), two tasks use the same archive path exactly
when the last segments are equal, whether or not the URLs are. -/
theorem archivePath_eq_iff (url1 url2 outputDir : List Char)
    (h1 : lastToken url1 ≠ [] ∧ lastToken url1 ≠ ['.'] ∧ lastToken url1 ≠ ['.', '.'])
    (h2 : lastToken url2 ≠ [] ∧ lastToken url2 ≠ ['.'] ∧ lastToken url2 ≠ ['.', '.']) :
    archivePath url1 outputDir = archivePath url2 outputDir ↔
      lastToken url1 = lastToken url2 := by
  have p1 : IsPlainName (lastToken url1) := ⟨h1.1, h1.2.1, h1.2.2, lastToken_no_separator url1⟩
  have p2 : IsPlainName (lastToken url2) := ⟨h2.1, h2.2.1, h2.2.2, lastToken_no_separator url2⟩
  constructor
  · exact Join_plain_injective outputDir _ _ p1 p2
  · intro h
    unfold archivePath
    rw [h]

/-- Witness for C9 as amended: `x.zip` and `y.zip` give different archive paths. -/
theorem archivePath_eq_iff_witness :
    archivePath "https://a.example/x.zip".toList "./output".toList
        = archivePath "https://a.example/y.zip".toList "./output".toList ↔
      lastToken "https://a.example/x.zip".toList = lastToken "https://a.example/y.zip".toList :=
  archivePath_eq_iff "https://a.example/x.zip".toList "https://a.example/y.zip".toList
    "./output".toList (by decide) (by decide)

/-! ## `FetchJSON`: examples -/

/-- Witness for C2: the cache holds `null`, the fetched manifest serializes to
`[]`; the run reports a change and the cache then holds `[]`. -/
theorem FetchJSON_cache_sync_witness :
    ∃ d1, FetchJSON emptyManifestEnv staleCacheDisk = .done (some []) true d1 ∧
      d1.file (Join "/work".toList inputJSONFileName) = some "[]".toList :=
  (FetchJSON_cache_sync emptyManifestEnv staleCacheDisk "/work".toList "null".toList
    "[]".toList ⟨200, "[]".toList⟩ (some []) rfl (by decide) rfl rfl (by decide) (by decide)
    rfl (fun h => h)).2 (by decide) rfl

/-- In the unchanged case the side file stays: when the cache equals the
serialization of the fetched manifest, `FetchJSON` returns `changed = false`
and `new.json` holds that serialization afterwards. -/
theorem FetchJSON_unchanged_side_file (env : Env) (d : Disk) (cwd bytes : List Char)
    (resp : Response) (items : Slice Item)
    (hcwd : env.getwd = some cwd)
    (hcache : d.file (Join cwd inputJSONFileName) = some bytes)
    (hget : env.get jsonURL = some resp) (hstatus : resp.StatusCode = 200)
    (hdecode : env.decode resp.Body = some items) (hmarshal : env.marshal items = some bytes)
    (hnew : d.readOnly (Join cwd newJSONFileName) = false) :
    (FetchJSON env d).changed? = some false ∧
      (FetchJSON env d).disk.file (Join cwd newJSONFileName) = some bytes ∧
      (FetchJSON env d).disk.file (Join cwd inputJSONFileName) = some bytes := by
  have hne := inputJSON_ne_newJSON cwd
  have hfetch := FetchAndParseJSON_ok env d jsonURL (Join cwd newJSONFileName) bytes resp items
    hget hstatus hdecode hmarshal hnew
  have hrun : FetchJSON env d = .done items false (Disk.mk (fun q =>
      if q = Join cwd newJSONFileName then some bytes else d.file q) d.readOnly) := by
    simp [FetchJSON, hcwd, hcache, hfetch, hne, hmarshal, compareFileHashes]
  rw [hrun]
  simp [Sync.changed?, Sync.disk, hne, hcache]

/-- C7 at the failing input: the cache already holds the fetched manifest; the
run returns `changed = false`, and the side file `new.json`, absent before the
run, is still on disk afterwards, while `input.json` was not written. -/
theorem FetchJSON_leaves_side_file :
    freshCacheDisk.file "/work/new.json".toList = none ∧
      (FetchJSON emptyManifestEnv freshCacheDisk).changed? = some false ∧
      (FetchJSON emptyManifestEnv freshCacheDisk).disk.file "/work/new.json".toList
        = some "[]".toList ∧
      (FetchJSON emptyManifestEnv staleCacheDisk).changed? = some true ∧
      (FetchJSON emptyManifestEnv staleCacheDisk).disk.file "/work/new.json".toList = none := by
  decide


end Tenebra
